import Mathlib

set_option maxRecDepth 65536

/-!
Verification of the internal-linking engine of this repository
(`internal_link_planner.py` — the legacy v1 generation,
`internal_link_planner_v2.py`, `semantic_topics_v2.py`,
`semantic_graph_v2.py`, `config.py`).
The Python sources are shallowly embedded: pure helpers become Lean
functions over `String`/`List`; the external NLTK part-of-speech pipeline
and the external scikit-learn KMeans/silhouette evaluation are modelled as
oracle parameters (they are third-party libraries, not code of this
repository); floats that are only ever compared are modelled as `ℚ`.
Python `str` operations are modelled for ASCII text (all inputs here are
ASCII): `str.lower`, `str.split()`, substring membership, `str.strip()`.
-/

/-! ## Definitions: shallow embedding of the planner, anchor engine,
clusterer and grouping code, with the concrete inputs used by the
claim-level theorems below. -/

/-- Models Python `str.lower()` for ASCII strings. -/
def lowerStr (s : String) : String := ⟨s.data.map Char.toLower⟩

/-- Whitespace characters recognised by Python `str.split()` / `\s`. -/
def pyIsSpace (c : Char) : Bool :=
  c = ' ' ∨ c = '\t' ∨ c = '\n' ∨ c = '\r' ∨ c = '\x0b' ∨ c = '\x0c'

/-- Helper for `pySplit`: accumulates the current word (reversed). -/
def splitWsAux : List Char → List Char → List String
  | [], acc => if acc.isEmpty then [] else [⟨acc.reverse⟩]
  | c :: cs, acc =>
    if pyIsSpace c then
      if acc.isEmpty then splitWsAux cs [] else ⟨acc.reverse⟩ :: splitWsAux cs []
    else
      splitWsAux cs (c :: acc)

/-- Models Python `str.split()` (split on whitespace runs, no empty parts). -/
def pySplit (s : String) : List String := splitWsAux s.data []

/-- Models Python `len(s.split())`, the word count used throughout the planners. -/
def wordCount (s : String) : Nat := (pySplit s).length

/-- Models Python `s.lower().split()`. -/
def wordsOf (s : String) : List String := pySplit (lowerStr s)

/-- List-level substring test: does `needle` occur contiguously in `hay`? -/
def listContainsSub (needle : List Char) : List Char → Bool
  | [] => needle.isEmpty
  | c :: cs => needle.isPrefixOf (c :: cs) || listContainsSub needle cs

/-- Models Python `needle in hay` on strings (contiguous substring). -/
def containsSub (hay needle : String) : Bool := listContainsSub needle.data hay.data

/-- Models Python `str.strip()` (whitespace trimmed from both ends). -/
def pyStrip (s : String) : String :=
  ⟨((s.data.dropWhile pyIsSpace).reverse.dropWhile pyIsSpace).reverse⟩

/-- Models Python `" ".join(words)`. -/
def pyJoin : List String → String
  | [] => ""
  | [w] => w
  | w :: rest => w ++ " " ++ pyJoin rest

/-- `LinkingConfig.utility_keywords` default from `config.py`. -/
def utilityKeywordsV2 : List String :=
  ["privacy", "terms", "cookie", "disclaimer", "contact", "login", "signup",
   "404", "about", "legal", "policy", "sitemap"]

/-- `LinkingConfig.min_anchor_words` default. -/
def MIN_ANCHOR_WORDS : Nat := 2

/-- `LinkingConfig.max_anchor_words` default. -/
def MAX_ANCHOR_WORDS : Nat := 5

/-- `LinkingConfig.min_anchor_overlap` default. -/
def MIN_ANCHOR_OVERLAP : Nat := 2

/-- `LinkingConfig.min_pillar_words` default (equals `MIN_PILLAR_WORDS` in
`internal_link_planner.py`). -/
def MIN_PILLAR_WORDS : Nat := 300

/-- A crawled page as consumed by `plan_semantic_links` in
`internal_link_planner_v2.py` (dict with keys `url`, `title`, `content`;
`.get(key, "")` defaults are totalised by the structure fields). -/
structure Page where
  url : String
  title : String
  content : String
deriving DecidableEq, Repr

/-- `internal_link_planner_v2.is_utility_page`: keyword substring match on
`(url + " " + title).lower()`. -/
def is_utility_page_v2 (url title : String) : Bool :=
  utilityKeywordsV2.any fun k => containsSub (lowerStr (url ++ " " ++ title)) (lowerStr k)

/-- Overlap used by `internal_link_planner_v2.select_best_anchor`:
`len(set(phrase.lower().split()) & set(target_content.lower().split()))`. -/
def overlapScore (phrase target : String) : Nat :=
  ((wordsOf phrase).eraseDups).countP fun w => (wordsOf target).contains w

/-- `internal_link_planner_v2.select_best_anchor`: returns the first candidate
phrase whose overlap with the target reaches `min_anchor_overlap`;
`None` on empty candidate list or empty (falsy) target content. -/
def select_best_anchor_v2 (candidate_phrases : List String) (target_content : String) :
    Option String :=
  if candidate_phrases.isEmpty ∨ target_content = "" then none
  else candidate_phrases.find? fun p => MIN_ANCHOR_OVERLAP ≤ overlapScore p target_content

/-- One step of dict grouping: `clusters.setdefault(label, []).append(idx)`
keeping first-occurrence key order (Python dict insertion order). -/
def addToGroup : List (Int × List Nat) → Int → Nat → List (Int × List Nat)
  | [], label, idx => [(label, [idx])]
  | (l, is) :: rest, label, idx =>
    if l = label then (l, is ++ [idx]) :: rest else (l, is) :: addToGroup rest label idx

/-- Groups page indices by cluster label, preserving page-index order inside
each group and first-occurrence order of the labels (shared shape of
`semantic_graph_v2.group_clusters_by_topic` and the grouping loop of
`plan_semantic_links` in `internal_link_planner_v2.py`). -/
def groupByLabel (cluster_labels : List Int) : List (Int × List Nat) :=
  cluster_labels.enum.foldl (fun g p => addToGroup g p.2 p.1) []

/-- `semantic_graph_v2.group_clusters_by_topic`: groups page indices by
cluster id; the `semantic_scores` argument is accepted but never read,
exactly as in the source. -/
def group_clusters_by_topic (cluster_labels : List Int) (semantic_scores : List ℚ) :
    List (Int × List Nat) :=
  groupByLabel cluster_labels

/-- `internal_link_planner_v2.LinkRecommendation` (the float
`semantic_score` is modelled as `ℚ`; `to_dict` renders it as a 2-decimal
string for the CSV writer, which is outside the planner's algorithm). -/
structure LinkRecommendation where
  source_url : String
  target_url : String
  anchor : String
  semantic_score : ℚ
deriving DecidableEq, Repr

/-- The `source_to_target: Dict[str, set]` bookkeeping of
`plan_semantic_links` (v2), as an association list; only membership and
insertion are ever used on the sets. -/
def s2tLookup : List (String × List String) → String → Option (List String)
  | [], _ => none
  | (k, l) :: rest, u => if k = u then some l else s2tLookup rest u

/-- Models `if source_url not in source_to_target: source_to_target[source_url] = set()`. -/
def s2tInit (s2t : List (String × List String)) (u : String) : List (String × List String) :=
  match s2tLookup s2t u with
  | some _ => s2t
  | none => s2t ++ [(u, [])]

/-- Models `source_to_target[source_url].add(pillar_url)` (key present). -/
def s2tAdd : List (String × List String) → String → String → List (String × List String)
  | [], _, _ => []
  | (k, l) :: rest, u, v => if k = u then (k, v :: l) :: rest else (k, l) :: s2tAdd rest u v

/-- Membership `pillar_url in source_to_target[source_url]`. -/
def pairMem (s2t : List (String × List String)) (u v : String) : Bool :=
  match s2tLookup s2t u with
  | some l => l.contains v
  | none => false

/-- Mutable state threaded through the v2 planner's loops: the accumulated
recommendation list and the `source_to_target` dedup table. -/
structure PlanState where
  recs : List LinkRecommendation
  s2t : List (String × List String)

/-- Page used when an index misses the list (never happens on validated
input; keeps the embedding total). -/
def emptyPage : Page := ⟨"", "", ""⟩

/-- The pillar scan inside `plan_semantic_links` (v2): the first non-utility
index whose content length strictly exceeds the best seen, starting from
`pillar_length = 0`. Returns `(pillar_idx, pillar_length)`. -/
def findPillarV2 (pages : List Page) (page_indices : List Nat) : Option Nat × Nat :=
  page_indices.foldl
    (fun acc idx =>
      let page := pages.getD idx emptyPage
      if is_utility_page_v2 page.url page.title then acc
      else
        let contentLength := page.content.length
        if acc.2 < contentLength then (some idx, contentLength) else acc)
    (none, 0)

/-- The body of the v2 planner's inner loop over one cluster member `idx`:
self-link guards, utility filter, `(source_url, pillar_url)` dedup, anchor
selection, emission. `extract` is the oracle for
`extract_noun_phrases` (the NLTK POS pipeline, a third-party library). -/
def processIndex (extract : String → List String) (pages : List Page)
    (silhouette : ℚ) (pillarIdx : Nat) (pillarUrl pillarContent : String)
    (st : PlanState) (idx : Nat) : PlanState :=
  if idx = pillarIdx then st
  else
    let page := pages.getD idx emptyPage
    if is_utility_page_v2 page.url page.title then st
    else if page.url = pillarUrl then st
    else
      let s2t1 := s2tInit st.s2t page.url
      if pairMem s2t1 page.url pillarUrl then { st with s2t := s2t1 }
      else
        match select_best_anchor_v2 (extract page.content) pillarContent with
        | none => { st with s2t := s2t1 }
        | some anchor =>
          { recs := st.recs ++ [⟨page.url, pillarUrl, anchor, silhouette⟩],
            s2t := s2tAdd s2t1 page.url pillarUrl }

/-- The body of the v2 planner's outer loop over one cluster: clusters with
fewer than 2 pages are skipped, then the pillar scan, then the member loop. -/
def processCluster (extract : String → List String) (pages : List Page)
    (silhouette : ℚ) (st : PlanState) (entry : Int × List Nat) : PlanState :=
  if entry.2.length < 2 then st
  else
    match (findPillarV2 pages entry.2).1 with
    | none => st
    | some pillarIdx =>
      let pillar := pages.getD pillarIdx emptyPage
      entry.2.foldl (processIndex extract pages silhouette pillarIdx pillar.url pillar.content) st

/-- `internal_link_planner_v2.plan_semantic_links`: input validation, then
cluster grouping and the two nested loops. Errors model
`LinkPlanningError`. -/
def plan_semantic_links_v2 (extract : String → List String) (pages : List Page)
    (cluster_labels : List Int) (silhouette : ℚ) :
    Except String (List LinkRecommendation) :=
  if pages.length < 2 then .error "Need at least 2 pages"
  else if cluster_labels.length ≠ pages.length then .error "Cluster labels length mismatch"
  else
    .ok ((groupByLabel cluster_labels).foldl
      (processCluster extract pages silhouette) ⟨[], []⟩).recs

/-- `UTILITY_KEYWORDS` from `internal_link_planner.py`. -/
def UTILITY_KEYWORDS_V1 : List String :=
  ["privacy", "terms", "cookie", "disclaimer", "contact", "login", "signup"]

/-- `STOPWORDS` from `internal_link_planner.py`. -/
def STOPWORDS : List String :=
  ["the", "and", "to", "of", "that", "is", "with", "for", "in",
   "on", "by", "as", "at", "from", "this", "it", "are", "be"]

/-- A page as consumed by the v1 planner (dict with keys `url`, `content`). -/
structure PageV1 where
  url : String
  content : String
deriving DecidableEq, Repr

/-- A link record emitted by the v1 planner
(`{"from": ..., "to": ..., "anchor": ..., "sentence": ...}`). -/
structure LinkV1 where
  from_url : String
  to_url : String
  anchor : String
  sentence : String
deriving DecidableEq, Repr

/-- `internal_link_planner.is_utility_page`: keyword substring match on the
lowercased URL (the v1 keywords are already lowercase). -/
def is_utility_page_v1 (url : String) : Bool :=
  UTILITY_KEYWORDS_V1.any fun k => containsSub (lowerStr url) k

/-- Models Python `max(l, key=key)` on a possibly-empty list: iterates and
replaces only on strictly greater key, so the first maximal element wins. -/
def pyMaxBy {α : Type} (key : α → Nat) : List α → Option α
  | [] => none
  | x :: xs => some (xs.foldl (fun b y => if key b < key y then y else b) x)

/-- `internal_link_planner.identify_pillar`: non-utility pages with at least
`MIN_PILLAR_WORDS` words; if none, all non-utility pages; then the page of
greatest content length in characters (first wins ties). -/
def identify_pillar (cluster_pages : List PageV1) : Option PageV1 :=
  let valid0 := cluster_pages.filter fun p =>
    !(is_utility_page_v1 p.url) && decide (MIN_PILLAR_WORDS ≤ wordCount p.content)
  let valid :=
    if valid0.isEmpty then cluster_pages.filter fun p => !(is_utility_page_v1 p.url)
    else valid0
  pyMaxBy (fun p => p.content.length) valid

/-- Python `\w` word characters (ASCII). -/
def isWordChar (c : Char) : Bool := c.isAlpha || c.isDigit || c = '_'

/-- Helper for `alphaRuns3`: scans characters keeping the current alphabetic
run (reversed) and whether the character just before the run was a word
character (which would break the leading `\b`). -/
def alphaRunsAux : List Char → List Char → Bool → List String
  | [], run, beforeIsWord =>
    if !beforeIsWord && decide (3 ≤ run.length) then [⟨run.reverse⟩] else []
  | c :: cs, run, beforeIsWord =>
    if c.isAlpha then alphaRunsAux cs (c :: run) beforeIsWord
    else
      (if !beforeIsWord && decide (3 ≤ run.length) && !(isWordChar c) then [⟨run.reverse⟩] else []) ++
        alphaRunsAux cs [] (isWordChar c)

/-- Models `re.findall(r"\b[a-zA-Z]{3,}\b", s)`: maximal alphabetic runs of
length at least 3 flanked by non-word characters (or the ends). -/
def alphaRuns3 (s : String) : List String := alphaRunsAux s.data [] false

/-- The sliding windows of the regex fallback in
`extract_candidate_phrases`: for each `i`, `j` ranges over
`range(i + MIN_ANCHOR_WORDS, min(i + MAX_ANCHOR_WORDS + 1, len(words)))`
and the window is `words[i:j]`. -/
def fallbackPhrases (words : List String) : List String :=
  (List.range words.length).flatMap fun i =>
    (List.range' (i + MIN_ANCHOR_WORDS)
        (min (i + MAX_ANCHOR_WORDS + 1) words.length - (i + MIN_ANCHOR_WORDS))).map
      fun j => pyJoin ((words.drop i).take (j - i))

/-- A tag matching `<NN.*>` in the chunk grammar. -/
def tagIsNN (t : String) : Bool := "NN".isPrefixOf t

/-- Single left-to-right scan realizing `nltk.RegexpParser` with the v1
grammar `NP: {<JJ>*<NN.*>+}` (leftmost, greedy, non-overlapping): `adjs`
is the pending adjective run and `nouns` the pending noun run, both
reversed; a chunk is emitted whenever a nonempty noun run ends. -/
def chunkScan : List (String × String) → List String → List String → List (List String)
  | [], adjs, nouns =>
    if nouns.isEmpty then [] else [adjs.reverse ++ nouns.reverse]
  | (w, t) :: rest, adjs, nouns =>
    if tagIsNN t then chunkScan rest adjs (w :: nouns)
    else if t = "JJ" then
      if nouns.isEmpty then chunkScan rest (w :: adjs) []
      else (adjs.reverse ++ nouns.reverse) :: chunkScan rest [w] []
    else
      if nouns.isEmpty then chunkScan rest [] []
      else (adjs.reverse ++ nouns.reverse) :: chunkScan rest [] []

/-- The chunks (as word lists) of the grammar `NP: {<JJ>*<NN.*>+}` over a
tagged token list. -/
def chunkNP (tags : List (String × String)) : List (List String) :=
  chunkScan tags [] []

/-- `internal_link_planner.extract_candidate_phrases`: the POS-tagged path
(chunk, join words, keep 2–5-word phrases) when the tagger oracle
succeeds, the regex sliding-window fallback when it raises. -/
def extract_candidate_phrases (tagger : String → Option (List (String × String)))
    (sentence : String) : List String :=
  match tagger (lowerStr sentence) with
  | some tags =>
    ((chunkNP tags).map fun ws => pyJoin ws).filter fun p =>
      decide (MIN_ANCHOR_WORDS ≤ wordCount p) && decide (wordCount p ≤ MAX_ANCHOR_WORDS)
  | none => fallbackPhrases (alphaRuns3 (lowerStr sentence))

/-- `internal_link_planner.clean_anchor`: drop stop words, then keep the
anchor only if the cleaned word count is within `[2, 5]`. -/
def clean_anchor (anchor : String) : Option String :=
  let ws := (pySplit anchor).filter fun w => !(STOPWORDS.contains w)
  if MIN_ANCHOR_WORDS ≤ ws.length ∧ ws.length ≤ MAX_ANCHOR_WORDS then
    some (pyJoin ws)
  else none

/-- `internal_link_planner.score_phrase`: count of phrase words (with
multiplicity) appearing in the lowercased target content. -/
def score_phrase (phrase target_content : String) : Nat :=
  (pySplit phrase).countP fun w => (wordsOf target_content).contains w

/-- Strict lexicographic order on the v1 sort keys `(score, length)`. -/
def kLt (a b : Nat × Nat) : Prop := a.1 < b.1 ∨ (a.1 = b.1 ∧ a.2 < b.2)

instance (a b : Nat × Nat) : Decidable (kLt a b) := by unfold kLt; exact inferInstance

/-- Sort key of `scored.sort(key=lambda x: (x[1], len(x[0])), reverse=True)`:
the overlap score, then the phrase length in characters. -/
def sortKeyV1 (x : String × Nat) : Nat × Nat := (x.2, x.1.length)

/-- Stable insertion for `pySortDesc`: the new element goes before the first
element whose key is not strictly greater, so earlier elements win ties. -/
def insertDesc {α : Type} (key : α → Nat × Nat) (x : α) : List α → List α
  | [] => [x]
  | y :: ys => if kLt (key x) (key y) then y :: insertDesc key x ys else x :: y :: ys

/-- Models Python `list.sort(key=..., reverse=True)`, which is specified as a
stable descending sort; stable insertion sort realizes exactly that
specification (equal keys keep their original relative order). -/
def pySortDesc {α : Type} (key : α → Nat × Nat) : List α → List α
  | [] => []
  | x :: xs => insertDesc key x (pySortDesc key xs)

/-- `internal_link_planner.select_best_anchor`: score the extracted phrases
against the target, keep those with overlap at least 2, sort stably by
`(score, length)` descending, take the head, clean it, and return the
cleaned anchor only if it is truthy and still has at least 2 words. -/
def select_best_anchor_v1 (tagger : String → Option (List (String × String)))
    (sentence target_content : String) : Option String :=
  let phrases := extract_candidate_phrases tagger sentence
  let scored := (phrases.map fun p => (p, score_phrase p target_content)).filter
    fun x => decide (2 ≤ x.2)
  match (pySortDesc sortKeyV1 scored).head? with
  | none => none
  | some best =>
    match clean_anchor best.1 with
    | some cleaned =>
      if cleaned ≠ "" ∧ 2 ≤ wordCount cleaned then some cleaned else none
    | none => none

/-- `internal_link_planner.fallback_anchor`: the first candidate phrase whose
cleaned form is truthy, with no scoring against the target. -/
def fallback_anchor (tagger : String → Option (List (String × String)))
    (sentence : String) : Option String :=
  (extract_candidate_phrases tagger sentence).findSome? fun p =>
    match clean_anchor p with
    | some cleaned => if cleaned ≠ "" then some cleaned else none
    | none => none

/-- Sentence-final punctuation of the v1 sentence splitter. -/
def sentencePunct (c : Char) : Bool := c = '.' ∨ c = '!' ∨ c = '?'

/-- Is the most recently consumed character sentence-final punctuation? -/
def headPunct : List Char → Bool
  | [] => false
  | p :: _ => sentencePunct p

/-- Helper for `splitSentences`: `acc` is the current piece (reversed) and
the flag says whether we are inside a separator's whitespace run. -/
def splitSentencesAux : List Char → List Char → Bool → List String
  | [], acc, _ => [⟨acc.reverse⟩]
  | c :: cs, acc, true =>
    if pyIsSpace c then splitSentencesAux cs acc true
    else splitSentencesAux cs [c] false
  | c :: cs, acc, false =>
    if pyIsSpace c && headPunct acc then ⟨acc.reverse⟩ :: splitSentencesAux cs [] true
    else splitSentencesAux cs (c :: acc) false

/-- Models `re.split(r'(?<=[.!?])\s+', content)`: split on whitespace runs
immediately preceded by `.`, `!` or `?`. -/
def splitSentences (content : String) : List String :=
  splitSentencesAux content.data [] false

/-- The per-page sentence loop of the v1 planner: the first sentence that
yields an anchor — scored selection first, unscored fallback second —
produces the link, then the loop breaks. -/
def firstAnchorV1 (tagger : String → Option (List (String × String)))
    (sentences : List String) (pillarContent : String) : Option (String × String) :=
  sentences.findSome? fun sentence =>
    match select_best_anchor_v1 tagger sentence pillarContent with
    | some a => some (a, sentence)
    | none =>
      match fallback_anchor tagger sentence with
      | some a => some (a, sentence)
      | none => none

/-- `internal_link_planner.plan_semantic_links`: for each cluster of at least
2 pages with a pillar, each non-pillar non-utility page contributes at
most one link, from its first sentence that yields an anchor. -/
def plan_semantic_links_v1 (tagger : String → Option (List (String × String)))
    (clusters : List (List PageV1)) : List LinkV1 :=
  clusters.foldl
    (fun links cluster_pages =>
      if cluster_pages.length < 2 then links
      else
        match identify_pillar cluster_pages with
        | none => links
        | some pillar =>
          cluster_pages.foldl
            (fun links page =>
              if page.url = pillar.url then links
              else if is_utility_page_v1 page.url then links
              else
                match firstAnchorV1 tagger (splitSentences page.content) pillar.content with
                | none => links
                | some (anchor, sentence) =>
                  links ++ [⟨page.url, pillar.url, anchor, pyStrip sentence⟩])
            links)
    []

/-- The fields of `config.clustering` that `cluster_pages` reads
(`min_silhouette_score` is only compared for the low-quality warning log). -/
structure ClusteringConfig where
  minClusters : Nat
  maxClusters : Nat
  minSilhouetteScore : ℚ

/-- Defaults of `ClusteringConfig` in `config.py`. -/
def defaultClusteringConfig : ClusteringConfig := ⟨2, 15, 1/5⟩

/-- The two fatal outcomes of `cluster_pages` (both raised as
`ClusteringError` in the source, with different messages). -/
inductive ClusteringErr where
  | insufficientInput
  | clusteringFailure
deriving DecidableEq, Repr

/-- The `(best_labels, best_score, best_n)` accumulator of `cluster_pages`,
initialised to `(None, -1, min_clusters)`. -/
structure BestAcc where
  labels : Option (List Int)
  score : ℚ
  bestN : Nat

/-- One iteration of the cluster-count search: a raising `k` is skipped, a
successful one replaces the accumulator only on strict improvement. -/
def clusterStep (evalK : Nat → Option (List Int × ℚ)) (acc : BestAcc) (k : Nat) : BestAcc :=
  match evalK k with
  | none => acc
  | some (labels, score) => if acc.score < score then ⟨some labels, score, k⟩ else acc

/-- `semantic_topics_v2.SemanticClusterer.cluster_pages`: requires at least 2
pages, searches `k` from `max(min_clusters, 2)` to
`min(max_clusters, len(pages))`, keeps the best strict improvement, and
fails if no candidate ever populated the accumulator. A best score below
`min_silhouette_score` only logs a warning; the result is returned anyway. -/
def cluster_pages_v2 (cfg : ClusteringConfig) (evalK : Nat → Option (List Int × ℚ))
    (pages : List String) : Except ClusteringErr (List Int × ℚ) :=
  if pages.length < 2 then .error .insufficientInput
  else
    let minC := max cfg.minClusters 2
    let maxC := min cfg.maxClusters pages.length
    let best := (List.range' minC (maxC + 1 - minC)).foldl (clusterStep evalK) ⟨none, -1, minC⟩
    match best.labels with
    | none => .error .clusteringFailure
    | some l => .ok (l, best.score)

/-- What is true of every emitted v2 recommendation: it carries the run's
silhouette score, is not a self-link, and arose from a successful anchor
selection between an in-range source page and an in-range pillar page. -/
def RecWitness (extract : String → List String) (pages : List Page) (s : ℚ)
    (r : LinkRecommendation) : Prop :=
  r.semantic_score = s ∧ r.source_url ≠ r.target_url ∧
  ∃ i : Nat, ∃ hi : i < pages.length, ∃ j : Nat, ∃ hj : j < pages.length,
    (pages.get ⟨i, hi⟩).url = r.source_url ∧ (pages.get ⟨j, hj⟩).url = r.target_url ∧
    select_best_anchor_v2 (extract (pages.get ⟨i, hi⟩).content)
      (pages.get ⟨j, hj⟩).content = some r.anchor

/-- Two recommendations differ on the `(source_url, target_url)` key. -/
def PairDistinct (a b : LinkRecommendation) : Prop :=
  ¬(a.source_url = b.source_url ∧ a.target_url = b.target_url)

/-- Invariant of the v2 planner state: every emitted recommendation has a
witness, the `(source, target)` keys are pairwise distinct, and each
emitted pair is recorded in the dedup table. -/
def PlanInv (extract : String → List String) (pages : List Page) (s : ℚ)
    (st : PlanState) : Prop :=
  (∀ r ∈ st.recs, RecWitness extract pages s r) ∧
  st.recs.Pairwise PairDistinct ∧
  (∀ r ∈ st.recs, pairMem st.s2t r.source_url r.target_url = true)

/-- Extraction oracle for the concrete runs below: the whole content is the
single candidate phrase. -/
def c1Extract : String → List String := fun s => [s]

/-- Four pages, where the same source URL appears in both clusters. -/
def c1Pages : List Page :=
  [⟨"https://s.com/dup", "", "cat mat"⟩,
   ⟨"https://s.com/pillar-a", "", "cat mat words here one"⟩,
   ⟨"https://s.com/dup", "", "cat mat"⟩,
   ⟨"https://s.com/pillar-b", "", "cat mat other words two"⟩]

/-- First recommendation of the C1 run. -/
def c1RecA : LinkRecommendation :=
  ⟨"https://s.com/dup", "https://s.com/pillar-a", "cat mat", 1⟩

/-- Second recommendation of the C1 run. -/
def c1RecB : LinkRecommendation :=
  ⟨"https://s.com/dup", "https://s.com/pillar-b", "cat mat", 1⟩

/-- Tagger oracle that always raises, sending the v1 extraction into its
regex fallback (the documented fallback mode). -/
def noTagger : String → Option (List (String × String)) := fun _ => none

/-- Source page of the concrete v1 runs: three-word content, no punctuation. -/
def c3Src : PageV1 := ⟨"https://s.com/a", "aaa bbb ccc"⟩

/-- Pillar page of the concrete v1 runs: longer content, disjoint words. -/
def c3Pil : PageV1 := ⟨"https://s.com/p", "ppp qqq rrr sss ttt"⟩

/-- The link the v1 planner emits on the C3/C8 input. -/
def c3Link : LinkV1 := ⟨"https://s.com/a", "https://s.com/p", "aaa bbb", "aaa bbb ccc"⟩

/-- Pages for the C7 run: the only candidate phrase is mostly stop words. -/
def c7Pages : List Page :=
  [⟨"https://s.com/src", "", "of the cat"⟩,
   ⟨"https://s.com/pil", "", "of the something else"⟩]

/-- The recommendation the v2 planner emits on the C7 input. -/
def c7Rec : LinkRecommendation := ⟨"https://s.com/src", "https://s.com/pil", "of the cat", 1⟩

/-- The page stored at index `i` (total lookup, as in the planner loops). -/
def pageAt (pages : List Page) (i : Nat) : Page := pages.getD i emptyPage

/-- Utility-page status of the page at index `i`. -/
def utilAt (pages : List Page) (i : Nat) : Bool :=
  is_utility_page_v2 (pageAt pages i).url (pageAt pages i).title

/-- Content length in characters of the page at index `i`. -/
def lenAt (pages : List Page) (i : Nat) : Nat := (pageAt pages i).content.length

/-- A single 700-character word: far over the character maximum, far under
the word minimum. -/
def c4BigWord : String := ⟨List.replicate 700 'a'⟩

/-- 301 one-character words: meets the pillar word minimum with only 601
characters. -/
def c4Many : String := pyJoin (List.replicate 301 "b")

/-- The two-page cluster of the C4 run (v2 page shape). -/
def c4Pages : List Page :=
  [⟨"https://s.com/big", "", c4BigWord⟩, ⟨"https://s.com/many", "", c4Many⟩]

/-- The two-page cluster of the C4 run (v1 page shape). -/
def c4PagesV1 : List PageV1 :=
  [⟨"https://s.com/big", c4BigWord⟩, ⟨"https://s.com/many", c4Many⟩]

/-- State of the best-so-far search after scanning candidates in
`[minC, c)`: an empty accumulator means every successful candidate scored
at most the `-1` sentinel; a populated one records the first candidate
attaining the maximal score. -/
def ClusterInv (evalK : Nat → Option (List Int × ℚ)) (minC c : Nat) (acc : BestAcc) : Prop :=
  (acc.labels = none → acc.score = -1 ∧
    ∀ k, minC ≤ k → k < c → ∀ lab q, evalK k = some (lab, q) → q ≤ -1) ∧
  (∀ lab, acc.labels = some lab → -1 < acc.score ∧
    ∃ k0, minC ≤ k0 ∧ k0 < c ∧ evalK k0 = some (lab, acc.score) ∧
      (∀ k, minC ≤ k → k < c → ∀ lab2 q, evalK k = some (lab2, q) → q ≤ acc.score) ∧
      (∀ k, minC ≤ k → k < k0 → ∀ lab2 q, evalK k = some (lab2, q) → q < acc.score))

/-- Oracle for the C5 counterexample: only `k = 3` evaluates, with the
minimal silhouette score `-1`. -/
def c5Eval : Nat → Option (List Int × ℚ) := fun k => if k = 3 then some ([0, 1, 2], -1) else none

/-- Oracle for the C5 witness: `k = 2` evaluates with score `0`. -/
def cwEval : Nat → Option (List Int × ℚ) := fun k => if k = 2 then some ([0, 1], 0) else none

/-- Oracle for the C6 counterexample: only `k = 2` evaluates, with the
minimal silhouette score `-1`. -/
def c6Eval : Nat → Option (List Int × ℚ) := fun k => if k = 2 then some ([0, 1], -1) else none

/-! ## Theorems: helper lemmas, then one theorem (with counterexample
and witness where applicable) per claim. -/

example : select_best_anchor_v2 ["alpha beta", "gamma delta epsilon"]
    "alpha beta gamma delta epsilon" = some "alpha beta" := by decide

example : overlapScore "gamma delta epsilon" "alpha beta gamma delta epsilon" = 3 := by decide

example : is_utility_page_v2 "https://x.com/privacy-policy" "" = true := by decide

example : is_utility_page_v2 "https://x.com/docker" "Docker Guide" = false := by decide

example : groupByLabel [0, 1, 0, 2] = [(0, [0, 2]), (1, [1]), (2, [3])] := by decide

/-- A property preserved by every step is preserved by `foldl`. -/
theorem foldl_preserve {α σ : Type} (f : σ → α → σ) (P : σ → Prop) (l : List α)
    (step : ∀ s a, a ∈ l → P s → P (f s a)) : ∀ s, P s → P (l.foldl f s) := by
  induction l with
  | nil => intro s h; simpa using h
  | cons a t ih =>
    intro s h
    simp only [List.foldl_cons]
    exact ih (fun s' b hb => step s' b (List.mem_cons_of_mem _ hb)) _
      (step s a (List.mem_cons_self _ _) h)

/-- Fold invariant tracking the processed prefix. -/
theorem foldl_processed {α σ : Type} (f : σ → α → σ) (P : List α → σ → Prop)
    (step : ∀ pre s a, P pre s → P (pre ++ [a]) (f s a)) :
    ∀ (l pre : List α) (s : σ), P pre s → P (pre ++ l) (l.foldl f s) := by
  intro l
  induction l with
  | nil => intro pre s h; simpa using h
  | cons a t ih =>
    intro pre s h
    simp only [List.foldl_cons]
    have h2 := ih (pre ++ [a]) (f s a) (step pre s a h)
    simpa [List.append_assoc] using h2

/-- Indices found in `addToGroup g lab idx` come from `g` or are `idx`. -/
theorem addToGroup_mem_idx {g : List (Int × List Nat)} {lab : Int} {idx : Nat} :
    ∀ e ∈ addToGroup g lab idx, ∀ i ∈ e.2, (∃ e' ∈ g, i ∈ e'.2) ∨ i = idx := by
  induction g with
  | nil =>
    intro e he i hi
    simp only [addToGroup, List.mem_singleton] at he
    subst he
    simp only [List.mem_singleton] at hi
    right; exact hi
  | cons hd tl ih =>
    intro e he i hi
    obtain ⟨l, is⟩ := hd
    simp only [addToGroup] at he
    by_cases hl : l = lab
    · rw [if_pos hl] at he
      rcases List.mem_cons.mp he with h1 | h1
      · subst h1
        simp only [List.mem_append, List.mem_singleton] at hi
        rcases hi with hi | hi
        · exact Or.inl ⟨(l, is), List.mem_cons_self _ _, hi⟩
        · right; exact hi
      · exact Or.inl ⟨e, List.mem_cons_of_mem _ h1, hi⟩
    · rw [if_neg hl] at he
      rcases List.mem_cons.mp he with h1 | h1
      · subst h1
        exact Or.inl ⟨(l, is), List.mem_cons_self _ _, hi⟩
      · rcases ih e h1 i hi with ⟨e', he', hie⟩ | h2
        · exact Or.inl ⟨e', List.mem_cons_of_mem _ he', hie⟩
        · right; exact h2

/-- Existing entries of `g` survive `addToGroup` with their indices. -/
theorem addToGroup_mem_keep {g : List (Int × List Nat)} {lab : Int} {idx : Nat}
    {e : Int × List Nat} (he : e ∈ g) {i : Nat} (hi : i ∈ e.2) :
    ∃ e' ∈ addToGroup g lab idx, e'.1 = e.1 ∧ i ∈ e'.2 := by
  induction g with
  | nil => cases he
  | cons hd tl ih =>
    obtain ⟨l, is⟩ := hd
    simp only [addToGroup]
    by_cases hl : l = lab
    · rw [if_pos hl]
      rcases List.mem_cons.mp he with h1 | h1
      · subst h1
        exact ⟨(l, is ++ [idx]), List.mem_cons_self _ _, rfl,
          List.mem_append.mpr (Or.inl hi)⟩
      · exact ⟨e, List.mem_cons_of_mem _ h1, rfl, hi⟩
    · rw [if_neg hl]
      rcases List.mem_cons.mp he with h1 | h1
      · subst h1
        exact ⟨(l, is), List.mem_cons_self _ _, rfl, hi⟩
      · obtain ⟨e', he', h2, h3⟩ := ih h1
        exact ⟨e', List.mem_cons_of_mem _ he', h2, h3⟩

/-- `addToGroup` records `idx` under the key `lab`. -/
theorem addToGroup_adds (g : List (Int × List Nat)) (lab : Int) (idx : Nat) :
    ∃ e ∈ addToGroup g lab idx, e.1 = lab ∧ idx ∈ e.2 := by
  induction g with
  | nil =>
    exact ⟨(lab, [idx]), List.mem_singleton.mpr rfl, rfl, List.mem_singleton.mpr rfl⟩
  | cons hd tl ih =>
    obtain ⟨l, is⟩ := hd
    simp only [addToGroup]
    by_cases hl : l = lab
    · rw [if_pos hl]
      exact ⟨(l, is ++ [idx]), List.mem_cons_self _ _, hl,
        List.mem_append.mpr (Or.inr (List.mem_singleton.mpr rfl))⟩
    · rw [if_neg hl]
      obtain ⟨e, he, h1, h2⟩ := ih
      exact ⟨e, List.mem_cons_of_mem _ he, h1, h2⟩

/-- Every page index stored by `groupByLabel` is in range. -/
theorem groupByLabel_idx_lt (labels : List Int) :
    ∀ e ∈ groupByLabel labels, ∀ i ∈ e.2, i < labels.length := by
  have key := foldl_preserve (fun g p => addToGroup g p.2 p.1)
    (fun g => ∀ e ∈ g, ∀ i ∈ e.2, i < labels.length) labels.enum
    (fun g p hp hg e he i hi => by
      rcases addToGroup_mem_idx e he i hi with ⟨e', he', hie⟩ | h2
      · exact hg e' he' i hie
      · subst h2
        have := List.mem_enum_iff_get?.mp hp
        have := List.get?_eq_some.mp this
        exact this.1)
    [] (by intro e he; cases he)
  exact key

/-- Every in-range index appears in `groupByLabel` under its own label. -/
theorem groupByLabel_complete (labels : List Int) (i : Nat) (h : i < labels.length) :
    ∃ e ∈ groupByLabel labels, e.1 = labels.get ⟨i, h⟩ ∧ i ∈ e.2 := by
  have key := foldl_processed (fun g p => addToGroup g p.2 p.1)
    (fun pre g => ∀ p ∈ pre, ∃ e ∈ g, e.1 = p.2 ∧ p.1 ∈ e.2)
    (fun pre s a hps p hp => by
      rcases List.mem_append.mp hp with h1 | h1
      · obtain ⟨e, he, h2, h3⟩ := hps p h1
        obtain ⟨e', he', h4, h5⟩ := addToGroup_mem_keep he h3
        exact ⟨e', he', h4.trans h2, h5⟩
      · rw [List.mem_singleton.mp h1]
        exact addToGroup_adds s a.2 a.1)
    labels.enum [] ([] : List (Int × List Nat)) (by intro p hp; cases hp)
  simp only [List.nil_append] at key
  refine key (i, labels.get ⟨i, h⟩) ?_
  exact List.mem_enum_iff_get?.mpr (List.get?_eq_get h)

/-- A pillar index returned by the v2 pillar scan is one of the scanned
indices. -/
theorem findPillarV2_mem (pages : List Page) (idxs : List Nat) :
    ∀ p, (findPillarV2 pages idxs).1 = some p → p ∈ idxs := by
  have key := foldl_preserve
    (fun (acc : Option Nat × Nat) idx =>
      let page := pages.getD idx emptyPage
      if is_utility_page_v2 page.url page.title then acc
      else
        let contentLength := page.content.length
        if acc.2 < contentLength then (some idx, contentLength) else acc)
    (fun acc => ∀ p, acc.1 = some p → p ∈ idxs) idxs
    (fun acc idx hidx hacc p => by
      simp only
      split
      · exact hacc p
      · split
        · intro hp
          simp only at hp
          injection hp with hp
          exact hp ▸ hidx
        · exact hacc p)
    (none, 0) (by intro p hp; cases hp)
  exact key

/-- Lookup ignores an appended tail when the key is absent from the front. -/
theorem s2tLookup_append_none {s2t : List (String × List String)} {u : String}
    (h : s2tLookup s2t u = none) (l2 : List (String × List String)) :
    s2tLookup (s2t ++ l2) u = s2tLookup l2 u := by
  induction s2t with
  | nil => simp
  | cons hd tl ih =>
    obtain ⟨k, l⟩ := hd
    simp only [s2tLookup, List.cons_append] at *
    by_cases hk : k = u
    · rw [if_pos hk] at h; cases h
    · rw [if_neg hk] at h ⊢
      exact ih h

/-- Lookup is unchanged by an appended tail when the key is present. -/
theorem s2tLookup_append_some {s2t : List (String × List String)} {u : String}
    {l : List String} (h : s2tLookup s2t u = some l) (l2 : List (String × List String)) :
    s2tLookup (s2t ++ l2) u = some l := by
  induction s2t with
  | nil => cases h
  | cons hd tl ih =>
    obtain ⟨k, ls⟩ := hd
    simp only [s2tLookup, List.cons_append] at *
    by_cases hk : k = u
    · rw [if_pos hk] at h ⊢; exact h
    · rw [if_neg hk] at h ⊢
      exact ih h

/-- After `s2tInit s2t u`, the key `u` is present. -/
theorem s2tInit_lookup_self (s2t : List (String × List String)) (u : String) :
    ∃ l, s2tLookup (s2tInit s2t u) u = some l := by
  unfold s2tInit
  cases hl : s2tLookup s2t u with
  | some l => exact ⟨l, hl⟩
  | none =>
    refine ⟨[], ?_⟩
    rw [s2tLookup_append_none hl]
    simp [s2tLookup]

/-- `s2tInit` never removes recorded pairs. -/
theorem pairMem_s2tInit_mono {s2t : List (String × List String)} {u v w : String}
    (h : pairMem s2t u v = true) : pairMem (s2tInit s2t w) u v = true := by
  unfold pairMem at *
  cases hl : s2tLookup s2t u with
  | none => rw [hl] at h; cases h
  | some l =>
    rw [hl] at h
    unfold s2tInit
    cases hw : s2tLookup s2t w with
    | some l2 => rw [hl]; exact h
    | none => rw [s2tLookup_append_some hl]; exact h

/-- Lookup after `s2tAdd`: the first entry keyed `u` gains `v`; other keys
are untouched; an absent key stays absent. -/
theorem s2tAdd_lookup (s2t : List (String × List String)) (u v a : String) :
    s2tLookup (s2tAdd s2t u v) a =
      if a = u then
        match s2tLookup s2t u with
        | some l => some (v :: l)
        | none => none
      else s2tLookup s2t a := by
  induction s2t with
  | nil =>
    by_cases ha : a = u <;> simp [s2tAdd, s2tLookup, ha]
  | cons hd tl ih =>
    obtain ⟨k, ls⟩ := hd
    by_cases hk : k = u
    · subst hk
      by_cases ha : a = k
      · subst ha
        simp [s2tAdd, s2tLookup]
      · have hka : ¬k = a := fun hc => ha hc.symm
        simp [s2tAdd, s2tLookup, ha, hka]
    · by_cases hka : k = a
      · subst hka
        simp [s2tAdd, s2tLookup, hk]
      · simp only [s2tAdd, s2tLookup, if_neg hk, if_neg hka]
        exact ih

/-- `s2tAdd` records the added pair, provided the key is present. -/
theorem pairMem_s2tAdd_self {s2t : List (String × List String)} {u v : String}
    (h : ∃ l, s2tLookup s2t u = some l) : pairMem (s2tAdd s2t u v) u v = true := by
  obtain ⟨l, hl⟩ := h
  unfold pairMem
  rw [s2tAdd_lookup, if_pos rfl, hl]
  simp

/-- `s2tAdd` never removes recorded pairs. -/
theorem pairMem_s2tAdd_mono {s2t : List (String × List String)} {u v a b : String}
    (h : pairMem s2t a b = true) : pairMem (s2tAdd s2t u v) a b = true := by
  unfold pairMem at *
  rw [s2tAdd_lookup]
  by_cases ha : a = u
  · rw [if_pos ha]
    cases hl : s2tLookup s2t u with
    | none => rw [ha, hl] at h; cases h
    | some l =>
      rw [ha, hl] at h
      simpa using Or.inr (by simpa using h)
  · rw [if_neg ha]
    exact h

/-- The inner-loop body preserves the planner invariant. -/
theorem processIndex_inv (extract : String → List String) (pages : List Page)
    (s : ℚ) (pidx : Nat) (pUrl pContent : String) (st : PlanState) (idx : Nat)
    (hidx : idx < pages.length) (hpidx : pidx < pages.length)
    (hpu : pUrl = (pages.get ⟨pidx, hpidx⟩).url)
    (hpc : pContent = (pages.get ⟨pidx, hpidx⟩).content)
    (h : PlanInv extract pages s st) :
    PlanInv extract pages s (processIndex extract pages s pidx pUrl pContent st idx) := by
  unfold processIndex
  by_cases h1 : idx = pidx
  · rw [if_pos h1]; exact h
  rw [if_neg h1]
  simp only
  have hget : pages.getD idx emptyPage = pages.get ⟨idx, hidx⟩ := by
    rw [List.getD_eq_getElem pages emptyPage hidx]
    simp [List.get_eq_getElem]
  by_cases h2 : is_utility_page_v2 (pages.getD idx emptyPage).url (pages.getD idx emptyPage).title
  · simp only [h2, if_true]; exact h
  simp only [h2, Bool.false_eq_true, if_false]
  by_cases h3 : (pages.getD idx emptyPage).url = pUrl
  · simp only [h3, if_true]; exact h
  simp only [h3, if_false]
  by_cases h4 : pairMem (s2tInit st.s2t (pages.getD idx emptyPage).url)
      (pages.getD idx emptyPage).url pUrl
  · simp only [h4, if_true]
    exact ⟨h.1, h.2.1, fun r hr => pairMem_s2tInit_mono (h.2.2 r hr)⟩
  simp only [h4, Bool.false_eq_true, if_false]
  cases hsel : select_best_anchor_v2 (extract (pages.getD idx emptyPage).content) pContent with
  | none =>
    exact ⟨h.1, h.2.1, fun r hr => pairMem_s2tInit_mono (h.2.2 r hr)⟩
  | some anchor =>
    constructor
    · intro r hr
      rcases List.mem_append.mp hr with hr | hr
      · exact h.1 r hr
      · rw [List.mem_singleton.mp hr]
        refine ⟨rfl, ?_, idx, hidx, pidx, hpidx, ?_, ?_, ?_⟩
        · exact h3
        · rw [hget]
        · exact hpu.symm
        · rw [← hget, ← hpc]; exact hsel
    constructor
    · rw [List.pairwise_append]
      refine ⟨h.2.1, List.pairwise_singleton _ _, ?_⟩
      intro a ha b hb
      rw [List.mem_singleton.mp hb]
      intro ⟨hsrc, htgt⟩
      have hmem := pairMem_s2tInit_mono (w := (pages.getD idx emptyPage).url) (h.2.2 a ha)
      rw [hsrc, htgt] at hmem
      simp only at hmem
      exact absurd hmem (by simpa using h4)
    · intro r hr
      rcases List.mem_append.mp hr with hr | hr
      · exact pairMem_s2tAdd_mono (pairMem_s2tInit_mono (h.2.2 r hr))
      · rw [List.mem_singleton.mp hr]
        exact pairMem_s2tAdd_self (s2tInit_lookup_self _ _)

/-- The per-cluster body preserves the planner invariant. -/
theorem processCluster_inv (extract : String → List String) (pages : List Page)
    (s : ℚ) (entry : Int × List Nat) (hb : ∀ i ∈ entry.2, i < pages.length)
    (st : PlanState) (h : PlanInv extract pages s st) :
    PlanInv extract pages s (processCluster extract pages s st entry) := by
  unfold processCluster
  by_cases h1 : entry.2.length < 2
  · rw [if_pos h1]; exact h
  rw [if_neg h1]
  cases hp : (findPillarV2 pages entry.2).1 with
  | none => exact h
  | some pidx =>
    have hmem := findPillarV2_mem pages entry.2 pidx hp
    have hpidx := hb pidx hmem
    have hget : pages.getD pidx emptyPage = pages.get ⟨pidx, hpidx⟩ := by
      rw [List.getD_eq_getElem pages emptyPage hpidx]
      simp [List.get_eq_getElem]
    exact foldl_preserve _ (PlanInv extract pages s) entry.2
      (fun st' i hi hst' =>
        processIndex_inv extract pages s pidx _ _ st' i (hb i hi) hpidx
          (by rw [hget]) (by rw [hget]) hst')
      st h

/-- Everything `plan_semantic_links_v2` proves about its successful output:
recommendation witnesses and pairwise-distinct `(source, target)` keys. -/
theorem planV2_spec (extract : String → List String) (pages : List Page)
    (cluster_labels : List Int) (s : ℚ) (recs : List LinkRecommendation)
    (h : plan_semantic_links_v2 extract pages cluster_labels s = .ok recs) :
    (∀ r ∈ recs, RecWitness extract pages s r) ∧ recs.Pairwise PairDistinct := by
  unfold plan_semantic_links_v2 at h
  split at h
  · cases h
  split at h
  · cases h
  next hlen =>
    simp only [Except.ok.injEq] at h
    subst h
    have hlen2 : cluster_labels.length = pages.length := by
      by_contra hc
      exact hlen hc
    have hbound : ∀ e ∈ groupByLabel cluster_labels, ∀ i ∈ e.2, i < pages.length := by
      intro e he i hi
      have := groupByLabel_idx_lt cluster_labels e he i hi
      omega
    have key := foldl_preserve (processCluster extract pages s)
      (PlanInv extract pages s) (groupByLabel cluster_labels)
      (fun st e he hst => processCluster_inv extract pages s e (hbound e he) st hst)
      ⟨[], []⟩
      ⟨fun r hr => absurd hr (List.not_mem_nil r), List.Pairwise.nil,
        fun r hr => absurd hr (List.not_mem_nil r)⟩
    exact ⟨key.1, key.2.1⟩

/-- On validated input the v2 planner always returns normally. -/
theorem planV2_ok (extract : String → List String) (pages : List Page)
    (cluster_labels : List Int) (s : ℚ) (h2 : 2 ≤ pages.length)
    (hl : cluster_labels.length = pages.length) :
    ∃ recs, plan_semantic_links_v2 extract pages cluster_labels s = .ok recs := by
  unfold plan_semantic_links_v2
  rw [if_neg (by omega), if_neg (by rw [hl]; exact fun hc => hc rfl)]
  exact ⟨_, rfl⟩

/-- C1 is false as stated: when the same `source_url` occurs at two page
indices assigned to different clusters, `plan_semantic_links` (v2) emits
two distinct recommendations sharing that `source_url` (one per pillar) —
the dedup key is the `(source_url, target_url)` pair, not the source alone. -/
theorem C1_counterexample :
    plan_semantic_links_v2 c1Extract c1Pages [0, 0, 1, 1] 1 = .ok [c1RecA, c1RecB] ∧
    c1RecA ≠ c1RecB ∧ c1RecA.source_url = c1RecB.source_url :=
  ⟨rfl, by decide, rfl⟩

/-- C1 (amended): over an entire v2 run, no two recommendations share the
same `(source_url, target_url)` pair; a source URL alone can repeat when
it appears in several clusters. -/
theorem C1_amended_pair_unique (extract : String → List String) (pages : List Page)
    (cluster_labels : List Int) (s : ℚ) (recs : List LinkRecommendation)
    (h : plan_semantic_links_v2 extract pages cluster_labels s = .ok recs) :
    recs.Pairwise PairDistinct :=
  (planV2_spec extract pages cluster_labels s recs h).2

/-- Witness for C1 (amended) at a concrete successful run. -/
theorem C1_witness :
    plan_semantic_links_v2 c1Extract c1Pages [0, 0, 1, 1] 1 = .ok [c1RecA, c1RecB] ∧
    List.Pairwise PairDistinct [c1RecA, c1RecB] :=
  ⟨rfl, C1_amended_pair_unique c1Extract c1Pages [0, 0, 1, 1] 1 [c1RecA, c1RecB] rfl⟩

/-- C9: every recommendation of a v2 run carries the silhouette score that
was passed into the planner — a run-level value shared by all
recommendations, not a per-link one. -/
theorem C9_run_level_score (extract : String → List String) (pages : List Page)
    (cluster_labels : List Int) (s : ℚ) (recs : List LinkRecommendation)
    (h : plan_semantic_links_v2 extract pages cluster_labels s = .ok recs) :
    ∀ r ∈ recs, r.semantic_score = s :=
  fun r hr => ((planV2_spec extract pages cluster_labels s recs h).1 r hr).1

/-- Witness for C9 at a concrete successful run. -/
theorem C9_witness :
    plan_semantic_links_v2 c1Extract c1Pages [0, 0, 1, 1] 1 = .ok [c1RecA, c1RecB] ∧
    c1RecA.semantic_score = 1 :=
  ⟨rfl,
   C9_run_level_score c1Extract c1Pages [0, 0, 1, 1] 1 [c1RecA, c1RecB] rfl
     c1RecA (by decide)⟩

/-- C10: `group_clusters_by_topic` is determined by `cluster_labels` alone —
the `semantic_scores` argument never influences the result — and every
in-range page index is grouped under its own label. -/
theorem C10_scores_ignored :
    (∀ (cluster_labels : List Int) (s1 s2 : List ℚ),
      group_clusters_by_topic cluster_labels s1 = group_clusters_by_topic cluster_labels s2) ∧
    (∀ (cluster_labels : List Int) (scores : List ℚ) (i : Nat)
      (h : i < cluster_labels.length),
      ∃ e ∈ group_clusters_by_topic cluster_labels scores,
        e.1 = cluster_labels.get ⟨i, h⟩ ∧ i ∈ e.2) :=
  ⟨fun _ _ _ => rfl, fun labels _ i h => groupByLabel_complete labels i h⟩

/-- Witness for C10 at concrete inputs. -/
theorem C10_witness :
    group_clusters_by_topic [0, 1, 0] [1/2, 1/3] = group_clusters_by_topic [0, 1, 0] [9/10] ∧
    ∃ e ∈ group_clusters_by_topic [0, 1, 0] [1/2], e.1 = 1 ∧ 1 ∈ e.2 := by
  constructor
  · exact C10_scores_ignored.1 [0, 1, 0] [1/2, 1/3] [9/10]
  · have h := C10_scores_ignored.2 [0, 1, 0] [1/2] 1 (by decide)
    simpa using h

/-- Words produced by the splitter are nonempty and free of whitespace. -/
theorem splitWsAux_words_ok (cs : List Char) :
    ∀ acc, (∀ c ∈ acc, ¬pyIsSpace c = true) →
      ∀ w ∈ splitWsAux cs acc, w ≠ "" ∧ ∀ c ∈ w.data, ¬pyIsSpace c = true := by
  induction cs with
  | nil =>
    intro acc hacc w hw
    simp only [splitWsAux] at hw
    by_cases he : acc.isEmpty
    · rw [if_pos he] at hw; cases hw
    · rw [if_neg he] at hw
      rw [List.mem_singleton.mp hw]
      constructor
      · intro hc
        have : acc.reverse = [] := congrArg String.data hc
        simp only [List.reverse_eq_nil_iff] at this
        rw [this] at he
        exact he rfl
      · intro c hcmem
        simp only [List.mem_reverse] at hcmem
        exact hacc c hcmem
  | cons c cs ih =>
    intro acc hacc w hw
    simp only [splitWsAux] at hw
    by_cases hsp : pyIsSpace c
    · rw [if_pos hsp] at hw
      by_cases he : acc.isEmpty
      · rw [if_pos he] at hw
        exact ih [] (by intro x hx; cases hx) w hw
      · rw [if_neg he] at hw
        rcases List.mem_cons.mp hw with h1 | h1
        · subst h1
          constructor
          · intro hc
            have : acc.reverse = [] := congrArg String.data hc
            simp only [List.reverse_eq_nil_iff] at this
            rw [this] at he
            exact he rfl
          · intro x hx
            simp only [List.mem_reverse] at hx
            exact hacc x hx
        · exact ih [] (by intro x hx; cases hx) w h1
    · rw [if_neg hsp] at hw
      refine ih (c :: acc) ?_ w hw
      intro x hx
      rcases List.mem_cons.mp hx with h1 | h1
      · rw [h1]; simpa using hsp
      · exact hacc x h1

/-- Every word of `pySplit s` is nonempty and whitespace-free. -/
theorem pySplit_words_ok (s : String) :
    ∀ w ∈ pySplit s, w ≠ "" ∧ ∀ c ∈ w.data, ¬pyIsSpace c = true :=
  splitWsAux_words_ok s.data [] (by intro c hc; cases hc)

/-- Scanning a whitespace-free block just extends the accumulator. -/
theorem splitWsAux_block (w : List Char) (hw : ∀ c ∈ w, ¬pyIsSpace c = true) :
    ∀ (cs acc : List Char), splitWsAux (w ++ cs) acc = splitWsAux cs (w.reverse ++ acc) := by
  induction w with
  | nil => intro cs acc; simp
  | cons c w ih =>
    intro cs acc
    have hc : ¬pyIsSpace c = true := hw c (List.mem_cons_self _ _)
    simp only [List.cons_append, splitWsAux, if_neg hc]
    refine (ih (fun x hx => hw x (List.mem_cons_of_mem _ hx)) cs (c :: acc)).trans ?_
    congr 1
    simp [List.append_assoc]

/-- Splitting a `" "`-join of nonempty whitespace-free words recovers them. -/
theorem pySplit_pyJoin (ws : List String)
    (h : ∀ w ∈ ws, w ≠ "" ∧ ∀ c ∈ w.data, ¬pyIsSpace c = true) :
    pySplit (pyJoin ws) = ws := by
  induction ws with
  | nil => rfl
  | cons w rest ih =>
    obtain ⟨hne, hns⟩ := h w (List.mem_cons_self _ _)
    have hwne : w.data ≠ [] := fun hc => hne (by cases w; simp_all)
    cases rest with
    | nil =>
      show pySplit w = [w]
      unfold pySplit
      have := splitWsAux_block w.data (by intro c hc; exact hns c hc) [] []
      simp only [List.append_nil] at this
      rw [this]
      simp only [splitWsAux]
      rw [if_neg (by simpa [List.isEmpty_iff] using hwne)]
      simp
    | cons r rs =>
      show pySplit (w ++ " " ++ pyJoin (r :: rs)) = w :: r :: rs
      unfold pySplit
      have hdata : (w ++ " " ++ pyJoin (r :: rs)).data =
          w.data ++ (' ' :: (pyJoin (r :: rs)).data) := by
        rw [String.data_append, String.data_append, List.append_assoc]
        rfl
      rw [hdata]
      rw [splitWsAux_block w.data (by intro c hc; exact hns c hc)]
      simp only [splitWsAux]
      rw [if_pos (by decide)]
      rw [if_neg (by simpa [List.isEmpty_iff] using hwne)]
      have ihr := ih (by intro x hx; exact h x (List.mem_cons_of_mem _ hx))
      unfold pySplit at ihr
      rw [List.append_nil, List.reverse_reverse, ihr]

/-- A successful `clean_anchor` output: its words are exactly the stop-word
filtered words of the input, within the configured bounds, stop-free. -/
theorem clean_anchor_some (a s : String) (h : clean_anchor a = some s) :
    pySplit s = (pySplit a).filter (fun w => !(STOPWORDS.contains w)) ∧
    MIN_ANCHOR_WORDS ≤ (pySplit s).length ∧ (pySplit s).length ≤ MAX_ANCHOR_WORDS ∧
    ∀ w ∈ pySplit s, STOPWORDS.contains w = false := by
  simp only [clean_anchor] at h
  split at h
  next hcond =>
    injection h with h2
    have hwords : ∀ w ∈ (pySplit a).filter (fun w => !(STOPWORDS.contains w)),
        w ≠ "" ∧ ∀ c ∈ w.data, ¬pyIsSpace c = true := by
      intro w hw
      exact pySplit_words_ok a w (List.mem_of_mem_filter hw)
    have hsplit : pySplit s = (pySplit a).filter (fun w => !(STOPWORDS.contains w)) := by
      rw [← h2]
      exact pySplit_pyJoin _ hwords
    refine ⟨hsplit, ?_, ?_, ?_⟩
    · rw [hsplit]; exact hcond.1
    · rw [hsplit]; exact hcond.2
    · intro w hw
      rw [hsplit] at hw
      have := List.of_mem_filter hw
      simpa using this
  next => cases h

/-- A v1 scored selection returns a `clean_anchor` output. -/
theorem select_v1_clean (tagger : String → Option (List (String × String)))
    (s t a : String) (h : select_best_anchor_v1 tagger s t = some a) :
    ∃ p, clean_anchor p = some a := by
  simp only [select_best_anchor_v1] at h
  split at h
  next => cases h
  next best hbest =>
    split at h
    next cleaned hclean =>
      split at h
      next hcond =>
        injection h with h2
        exact ⟨best.1, by rw [hclean, h2]⟩
      next => cases h
    next => cases h

/-- A v1 fallback anchor is a `clean_anchor` output. -/
theorem fallback_clean (tagger : String → Option (List (String × String)))
    (s a : String) (h : fallback_anchor tagger s = some a) :
    ∃ p, clean_anchor p = some a := by
  unfold fallback_anchor at h
  obtain ⟨p, hp, hfp⟩ := List.exists_of_findSome?_eq_some h
  split at hfp
  next c hc =>
    split at hfp
    next =>
      injection hfp with h2
      exact ⟨p, by rw [hc, h2]⟩
    next => cases hfp
  next => cases hfp

/-- Any anchor found by the per-page sentence loop is a `clean_anchor`
output. -/
theorem firstAnchor_clean (tagger : String → Option (List (String × String)))
    (sentences : List String) (pc : String) (a sent : String)
    (h : firstAnchorV1 tagger sentences pc = some (a, sent)) :
    ∃ p, clean_anchor p = some a := by
  unfold firstAnchorV1 at h
  obtain ⟨s', hs', hf⟩ := List.exists_of_findSome?_eq_some h
  split at hf
  next a' ha' =>
    injection hf with h2
    obtain ⟨h3, h4⟩ := Prod.mk.injEq .. ▸ h2
    exact h3 ▸ select_v1_clean tagger s' pc a' ha'
  next =>
    split at hf
    next a' ha' =>
      injection hf with h2
      obtain ⟨h3, h4⟩ := Prod.mk.injEq .. ▸ h2
      exact h3 ▸ fallback_clean tagger s' a' ha'
    next => cases hf

/-- Everything the v1 planner guarantees about each emitted link: no
self-link, and the anchor is a stop-word-cleaned phrase. -/
theorem planV1_spec (tagger : String → Option (List (String × String)))
    (clusters : List (List PageV1)) :
    ∀ l ∈ plan_semantic_links_v1 tagger clusters,
      l.from_url ≠ l.to_url ∧ ∃ p, clean_anchor p = some l.anchor := by
  unfold plan_semantic_links_v1
  refine foldl_preserve _
    (fun (links : List LinkV1) => ∀ l ∈ links,
      l.from_url ≠ l.to_url ∧ ∃ p, clean_anchor p = some l.anchor)
    clusters ?_ [] (by intro l hl; cases hl)
  intro links cluster hc hlinks
  by_cases h1 : cluster.length < 2
  · rw [if_pos h1]; exact hlinks
  rw [if_neg h1]
  cases hp : identify_pillar cluster with
  | none => exact hlinks
  | some pillar =>
    refine foldl_preserve _
      (fun (links : List LinkV1) => ∀ l ∈ links,
        l.from_url ≠ l.to_url ∧ ∃ p, clean_anchor p = some l.anchor)
      cluster ?_ links hlinks
    intro links' page hpage hlinks'
    by_cases h2 : page.url = pillar.url
    · rw [if_pos h2]; exact hlinks'
    rw [if_neg h2]
    by_cases h3 : is_utility_page_v1 page.url
    · simp only [h3, if_true]; exact hlinks'
    simp only [h3, Bool.false_eq_true, if_false]
    cases hf : firstAnchorV1 tagger (splitSentences page.content) pillar.content with
    | none => exact hlinks'
    | some pr =>
      obtain ⟨anchor, sentence⟩ := pr
      intro l hl
      rcases List.mem_append.mp hl with hl | hl
      · exact hlinks' l hl
      · rw [List.mem_singleton.mp hl]
        exact ⟨h2, firstAnchor_clean _ _ _ _ _ hf⟩

/-- C8: neither planner generation ever emits a self-link — every v2
recommendation has `source_url ≠ target_url`, and every v1 link has
`from ≠ to`, whatever the oracles and inputs are. -/
theorem C8_no_self_links :
    (∀ (extract : String → List String) (pages : List Page) (cluster_labels : List Int)
      (s : ℚ) (recs : List LinkRecommendation),
      plan_semantic_links_v2 extract pages cluster_labels s = .ok recs →
      ∀ r ∈ recs, r.source_url ≠ r.target_url) ∧
    (∀ (tagger : String → Option (List (String × String))) (clusters : List (List PageV1)),
      ∀ l ∈ plan_semantic_links_v1 tagger clusters, l.from_url ≠ l.to_url) :=
  ⟨fun extract pages labels s recs h r hr =>
    ((planV2_spec extract pages labels s recs h).1 r hr).2.1,
   fun tagger clusters l hl => (planV1_spec tagger clusters l hl).1⟩

/-- Witness for C8 at concrete runs of both planner generations. -/
theorem C8_witness :
    plan_semantic_links_v2 c1Extract c1Pages [0, 0, 1, 1] 1 = .ok [c1RecA, c1RecB] ∧
    c1RecA.source_url ≠ c1RecA.target_url ∧
    plan_semantic_links_v1 noTagger [[c3Src, c3Pil]] = [c3Link] ∧
    c3Link.from_url ≠ c3Link.to_url :=
  ⟨rfl,
   C8_no_self_links.1 c1Extract c1Pages [0, 0, 1, 1] 1 [c1RecA, c1RecB] rfl c1RecA (by decide),
   rfl,
   C8_no_self_links.2 noTagger [[c3Src, c3Pil]] c3Link (by decide)⟩

/-- C3 is false as stated for the legacy v1 planner: here the source and
target contents share no word at all, yet the v1 planner still emits a
recommendation for that source page, via the unscored `fallback_anchor`
tier. -/
theorem C3_counterexample :
    plan_semantic_links_v1 noTagger [[c3Src, c3Pil]] = [c3Link] ∧
    c3Link.from_url = c3Src.url ∧
    (wordsOf c3Src.content).all (fun w => !((wordsOf c3Pil.content).contains w)) = true :=
  ⟨rfl, rfl, by decide⟩

/-- C3 (amended): when no candidate reaches `min_anchor_overlap` — in
particular on zero word overlap — both anchor selectors return `None`;
the v2 planner only ever emits a recommendation whose anchor came from a
successful selection on that source page (hence none for such a page), and
a validated v2 run always returns normally; the v1 planner, however, may
still emit a link through its unscored fallback tier. -/
theorem C3_no_overlap_no_recommendation :
    (∀ (cs : List String) (t : String),
      (∀ p ∈ cs, overlapScore p t < MIN_ANCHOR_OVERLAP) →
      select_best_anchor_v2 cs t = none) ∧
    (∀ (tagger : String → Option (List (String × String))) (s t : String),
      (∀ p ∈ extract_candidate_phrases tagger s, score_phrase p t < 2) →
      select_best_anchor_v1 tagger s t = none) ∧
    (∀ (extract : String → List String) (pages : List Page) (cluster_labels : List Int)
      (sc : ℚ) (recs : List LinkRecommendation),
      plan_semantic_links_v2 extract pages cluster_labels sc = .ok recs →
      ∀ r ∈ recs, ∃ i : Nat, ∃ hi : i < pages.length, ∃ j : Nat, ∃ hj : j < pages.length,
        (pages.get ⟨i, hi⟩).url = r.source_url ∧ (pages.get ⟨j, hj⟩).url = r.target_url ∧
        select_best_anchor_v2 (extract (pages.get ⟨i, hi⟩).content)
          (pages.get ⟨j, hj⟩).content = some r.anchor) ∧
    (∀ (extract : String → List String) (pages : List Page) (cluster_labels : List Int)
      (sc : ℚ), 2 ≤ pages.length → cluster_labels.length = pages.length →
      ∃ recs, plan_semantic_links_v2 extract pages cluster_labels sc = .ok recs) := by
  refine ⟨?_, ?_, ?_, ?_⟩
  · intro cs t h
    unfold select_best_anchor_v2
    split
    · rfl
    · refine List.find?_eq_none.mpr fun x hx => ?_
      have := h x hx
      simp only [decide_eq_true_eq]
      omega
  · intro tagger s t h
    simp only [select_best_anchor_v1]
    have hsc : ((extract_candidate_phrases tagger s).map
        (fun p => (p, score_phrase p t))).filter (fun x => decide (2 ≤ x.2)) = [] := by
      refine List.filter_eq_nil.mpr fun x hx => ?_
      obtain ⟨p, hp, hpx⟩ := List.mem_map.mp hx
      have := h p hp
      subst hpx
      simp only [decide_eq_true_eq]
      omega
    rw [hsc]
    rfl
  · intro extract pages labels sc recs h r hr
    exact ((planV2_spec extract pages labels sc recs h).1 r hr).2.2
  · intro extract pages labels sc h2 hl
    exact planV2_ok extract pages labels sc h2 hl

/-- Witness for C3 (amended) at concrete zero-overlap inputs. -/
theorem C3_witness :
    select_best_anchor_v2 ["aaa bbb"] "zzz www" = none ∧
    select_best_anchor_v1 noTagger "aaa bbb ccc" "ppp qqq rrr sss ttt" = none :=
  ⟨C3_no_overlap_no_recommendation.1 ["aaa bbb"] "zzz www" (by decide),
   C3_no_overlap_no_recommendation.2.1 noTagger "aaa bbb ccc" "ppp qqq rrr sss ttt" (by decide)⟩

/-- C7 is false as stated for the v2 pipeline: it performs no stop-word
removal, so it can emit the anchor `"of the cat"`, which keeps only one
word once stop words are removed — below `min_anchor_words`. -/
theorem C7_counterexample :
    plan_semantic_links_v2 c1Extract c7Pages [0, 0] 1 = .ok [c7Rec] ∧
    c7Rec.anchor = "of the cat" ∧
    ((pySplit c7Rec.anchor).filter fun w => !(STOPWORDS.contains w)).length
      < MIN_ANCHOR_WORDS :=
  ⟨rfl, rfl, by decide⟩

/-- C7 (amended): in the v1 pipeline every candidate is stop-word cleaned
before it can be returned (`clean_anchor`), and every emitted v1 anchor
has between `min_anchor_words` and `max_anchor_words` words, none of them
stop words, after that cleaning; the v2 pipeline applies no stop-word
removal at all — its selector returns a candidate phrase verbatim. -/
theorem C7_anchor_cleaning :
    (∀ (a s : String), clean_anchor a = some s →
      pySplit s = (pySplit a).filter (fun w => !(STOPWORDS.contains w)) ∧
      MIN_ANCHOR_WORDS ≤ (pySplit s).length ∧ (pySplit s).length ≤ MAX_ANCHOR_WORDS ∧
      ∀ w ∈ pySplit s, STOPWORDS.contains w = false) ∧
    (∀ (tagger : String → Option (List (String × String))) (clusters : List (List PageV1)),
      ∀ l ∈ plan_semantic_links_v1 tagger clusters,
        MIN_ANCHOR_WORDS ≤ (pySplit l.anchor).length ∧
        (pySplit l.anchor).length ≤ MAX_ANCHOR_WORDS ∧
        ∀ w ∈ pySplit l.anchor, STOPWORDS.contains w = false) ∧
    (∀ (cs : List String) (t p : String), select_best_anchor_v2 cs t = some p → p ∈ cs) := by
  refine ⟨clean_anchor_some, ?_, ?_⟩
  · intro tagger clusters l hl
    obtain ⟨p, hp⟩ := (planV1_spec tagger clusters l hl).2
    obtain ⟨_, h1, h2, h3⟩ := clean_anchor_some p l.anchor hp
    exact ⟨h1, h2, h3⟩
  · intro cs t p h
    unfold select_best_anchor_v2 at h
    split at h
    · cases h
    · exact List.mem_of_find?_eq_some h

/-- Witness for C7 (amended) at concrete inputs. -/
theorem C7_witness :
    clean_anchor "of the cat mat" = some "cat mat" ∧
    pySplit "cat mat" =
      (pySplit "of the cat mat").filter (fun w => !(STOPWORDS.contains w)) ∧
    plan_semantic_links_v1 noTagger [[c3Src, c3Pil]] = [c3Link] ∧
    MIN_ANCHOR_WORDS ≤ (pySplit c3Link.anchor).length ∧
    select_best_anchor_v2 ["cat mat"] "cat mat here" = some "cat mat" ∧
    "cat mat" ∈ ["cat mat"] :=
  ⟨by decide,
   (C7_anchor_cleaning.1 "of the cat mat" "cat mat" (by decide)).1,
   rfl,
   (C7_anchor_cleaning.2.1 noTagger [[c3Src, c3Pil]] c3Link (by decide)).1,
   by decide,
   C7_anchor_cleaning.2.2 ["cat mat"] "cat mat here" "cat mat" (by decide)⟩

/-- `find?` splits its input at the first satisfying element. -/
theorem find?_first_split {α : Type} {p : α → Bool} {l : List α} {b : α}
    (h : l.find? p = some b) :
    ∃ l1 l2, l = l1 ++ b :: l2 ∧ p b = true ∧ ∀ q ∈ l1, p q = false := by
  induction l with
  | nil => cases h
  | cons x xs ih =>
    cases hp : p x with
    | true =>
      rw [List.find?_cons_of_pos _ hp] at h
      injection h with h2
      subst h2
      exact ⟨[], xs, rfl, hp, by intro q hq; cases hq⟩
    | false =>
      rw [List.find?_cons_of_neg _ (by simp [hp])] at h
      obtain ⟨l1, l2, h1, h2, h3⟩ := ih h
      refine ⟨x :: l1, l2, by rw [h1]; rfl, h2, ?_⟩
      intro q hq
      rcases List.mem_cons.mp hq with hq | hq
      · rw [hq]; exact hp
      · exact h3 q hq

/-- The lexicographic key order is transitive. -/
theorem kLt_trans {a b c : Nat × Nat} (h1 : kLt a b) (h2 : kLt b c) : kLt a c := by
  obtain ⟨a1, a2⟩ := a; obtain ⟨b1, b2⟩ := b; obtain ⟨c1, c2⟩ := c
  unfold kLt at *
  omega

/-- Non-strict comparisons compose in the lexicographic key order. -/
theorem kLt_neg_neg {a b c : Nat × Nat} (h1 : ¬kLt a b) (h2 : ¬kLt b c) : ¬kLt a c := by
  obtain ⟨a1, a2⟩ := a; obtain ⟨b1, b2⟩ := b; obtain ⟨c1, c2⟩ := c
  unfold kLt at *
  omega

/-- Stable insertion grows the length by one. -/
theorem insertDesc_length {α : Type} (key : α → Nat × Nat) (x : α) (l : List α) :
    (insertDesc key x l).length = l.length + 1 := by
  induction l with
  | nil => rfl
  | cons y ys ih =>
    simp only [insertDesc]
    split
    · simp [ih]
    · simp

/-- The stable descending sort preserves length. -/
theorem pySortDesc_length {α : Type} (key : α → Nat × Nat) (l : List α) :
    (pySortDesc key l).length = l.length := by
  induction l with
  | nil => rfl
  | cons x xs ih =>
    simp only [pySortDesc]
    rw [insertDesc_length, ih]
    rfl

/-- The head of the stable descending sort is the first element of the
original list whose key is maximal: everything before it is strictly
smaller, everything after it no greater. -/
theorem pySortDesc_head_first_max {α : Type} (key : α → Nat × Nat) :
    ∀ (l : List α) (b : α), (pySortDesc key l).head? = some b →
    ∃ l1 l2, l = l1 ++ b :: l2 ∧ (∀ q ∈ l1, kLt (key q) (key b)) ∧
      ∀ q ∈ l2, ¬kLt (key b) (key q) := by
  intro l
  induction l with
  | nil => intro b h; cases h
  | cons x xs ih =>
    intro b h
    simp only [pySortDesc] at h
    cases hs : pySortDesc key xs with
    | nil =>
      have hxs : xs = [] := by
        have hlen := pySortDesc_length key xs
        rw [hs] at hlen
        exact List.length_eq_zero.mp hlen.symm
      rw [hs] at h
      simp only [insertDesc, List.head?_cons, Option.some.injEq] at h
      subst h
      exact ⟨[], xs, rfl, (by intro q hq; cases hq),
        (by intro q hq; rw [hxs] at hq; cases hq)⟩
    | cons hh tt =>
      rw [hs] at h
      simp only [insertDesc] at h
      by_cases hlt : kLt (key x) (key hh)
      · rw [if_pos hlt] at h
        simp only [List.head?_cons, Option.some.injEq] at h
        subst h
        obtain ⟨l1, l2, h1, h2, h3⟩ := ih hh (by rw [hs]; rfl)
        refine ⟨x :: l1, l2, by rw [h1]; rfl, ?_, h3⟩
        intro q hq
        rcases List.mem_cons.mp hq with hq | hq
        · rw [hq]; exact hlt
        · exact h2 q hq
      · rw [if_neg hlt] at h
        simp only [List.head?_cons, Option.some.injEq] at h
        subst h
        refine ⟨[], xs, rfl, (by intro q hq; cases hq), ?_⟩
        intro q hq
        obtain ⟨l1, l2, h1, h2, h3⟩ := ih hh (by rw [hs]; rfl)
        rw [h1] at hq
        rcases List.mem_append.mp hq with hq | hq
        · exact fun hc => hlt (kLt_trans hc (h2 q hq))
        · rcases List.mem_cons.mp hq with hq | hq
          · rw [hq]; exact hlt
          · exact kLt_neg_neg hlt (h3 q hq)

/-- C2 is false as stated: the v2 selector returns the first candidate that
reaches the overlap threshold, here `"alpha beta"` with overlap 2, passing
over `"gamma delta epsilon"` whose overlap 3 is strictly higher. -/
theorem C2_counterexample :
    select_best_anchor_v2 ["alpha beta", "gamma delta epsilon"]
      "alpha beta gamma delta epsilon" = some "alpha beta" ∧
    overlapScore "alpha beta" "alpha beta gamma delta epsilon" = 2 ∧
    overlapScore "gamma delta epsilon" "alpha beta gamma delta epsilon" = 3 := by
  decide

/-- C2 (amended): the v2 selector returns the first candidate in list order
whose overlap reaches `min_anchor_overlap` (so a later candidate with a
strictly higher overlap can be passed over), and returns `None` only on a
falsy target or when no candidate reaches the threshold; the v1 selector
sorts stably by `(overlap, character length)` descending and returns the
stop-word-cleaned form of the first maximal scored candidate. -/
theorem C2_selector_order :
    (∀ (cs : List String) (t p : String), select_best_anchor_v2 cs t = some p →
      ∃ l1 l2, cs = l1 ++ p :: l2 ∧ MIN_ANCHOR_OVERLAP ≤ overlapScore p t ∧
        ∀ q ∈ l1, overlapScore q t < MIN_ANCHOR_OVERLAP) ∧
    (∀ (cs : List String) (t : String), select_best_anchor_v2 cs t = none →
      t = "" ∨ ∀ p ∈ cs, overlapScore p t < MIN_ANCHOR_OVERLAP) ∧
    (∀ (tagger : String → Option (List (String × String))) (s t a : String),
      select_best_anchor_v1 tagger s t = some a →
      ∃ best : String × Nat, ∃ l1 l2,
        ((extract_candidate_phrases tagger s).map (fun p => (p, score_phrase p t))).filter
            (fun x => decide (2 ≤ x.2)) = l1 ++ best :: l2 ∧
        2 ≤ best.2 ∧
        (∀ q ∈ l1, kLt (sortKeyV1 q) (sortKeyV1 best)) ∧
        (∀ q ∈ l2, ¬kLt (sortKeyV1 best) (sortKeyV1 q)) ∧
        clean_anchor best.1 = some a) := by
  refine ⟨?_, ?_, ?_⟩
  · intro cs t p h
    unfold select_best_anchor_v2 at h
    split at h
    · cases h
    · obtain ⟨l1, l2, h1, h2, h3⟩ := find?_first_split h
      refine ⟨l1, l2, h1, by simpa using h2, ?_⟩
      intro q hq
      have := h3 q hq
      simp only [decide_eq_false_iff_not] at this
      omega
  · intro cs t h
    unfold select_best_anchor_v2 at h
    split at h
    next hcond =>
      rcases hcond with hc | hc
      · right
        intro p hp
        rw [List.isEmpty_iff.mp hc] at hp
        cases hp
      · left; exact hc
    next =>
      right
      intro p hp
      have := List.find?_eq_none.mp h p hp
      simp only [decide_eq_true_eq] at this
      omega
  · intro tagger s t a h
    simp only [select_best_anchor_v1] at h
    split at h
    next => cases h
    next best hbest =>
      obtain ⟨l1, l2, h1, h2, h3⟩ := pySortDesc_head_first_max sortKeyV1 _ best hbest
      split at h
      next cleaned hclean =>
        split at h
        next hcond =>
          injection h with h4
          refine ⟨best, l1, l2, h1, ?_, h2, h3, by rw [hclean, h4]⟩
          have hmem : best ∈ ((extract_candidate_phrases tagger s).map
              (fun p => (p, score_phrase p t))).filter (fun x => decide (2 ≤ x.2)) := by
            rw [h1]
            exact List.mem_append.mpr (Or.inr (List.mem_cons_self _ _))
          have := List.of_mem_filter hmem
          simpa using this
        next => cases h
      next => cases h

/-- Witness for C2 (amended) at concrete selector runs. -/
theorem C2_witness :
    (∃ l1 l2, (["cat mat"] : List String) = l1 ++ "cat mat" :: l2 ∧
      MIN_ANCHOR_OVERLAP ≤ overlapScore "cat mat" "cat mat here" ∧
      ∀ q ∈ l1, overlapScore q "cat mat here" < MIN_ANCHOR_OVERLAP) ∧
    (∃ best : String × Nat, ∃ l1 l2,
      ((extract_candidate_phrases noTagger "aaa bbb ccc").map
          (fun p => (p, score_phrase p "aaa bbb zzz"))).filter
          (fun x => decide (2 ≤ x.2)) = l1 ++ best :: l2 ∧
      2 ≤ best.2 ∧
      (∀ q ∈ l1, kLt (sortKeyV1 q) (sortKeyV1 best)) ∧
      (∀ q ∈ l2, ¬kLt (sortKeyV1 best) (sortKeyV1 q)) ∧
      clean_anchor best.1 = some "aaa bbb") :=
  ⟨C2_selector_order.1 ["cat mat"] "cat mat here" "cat mat" (by decide),
   C2_selector_order.2.2 noTagger "aaa bbb ccc" "aaa bbb zzz" "aaa bbb" (by decide)⟩

/-- Python `max(l, key=key)` returns the first element with maximal key:
strictly greater than everything before it, no smaller than anything
after it. -/
theorem pyMaxBy_first_max {α : Type} (key : α → Nat) (l : List α) (b : α)
    (h : pyMaxBy key l = some b) :
    ∃ l1 l2, l = l1 ++ b :: l2 ∧ (∀ q ∈ l1, key q < key b) ∧
      ∀ q ∈ l2, key q ≤ key b := by
  cases l with
  | nil => cases h
  | cons x xs =>
    simp only [pyMaxBy, Option.some.injEq] at h
    have key2 := foldl_processed (fun acc y => if key acc < key y then y else acc)
      (fun pre acc => ∃ l1 l2, x :: pre = l1 ++ acc :: l2 ∧
        (∀ q ∈ l1, key q < key acc) ∧ ∀ q ∈ l2, key q ≤ key acc)
      (fun pre acc y hP => by
        obtain ⟨l1, l2, h1, h2, h3⟩ := hP
        dsimp only
        by_cases hlt : key acc < key y
        · rw [if_pos hlt]
          refine ⟨x :: pre, [], by simp, ?_, (by intro q hq; cases hq)⟩
          intro q hq
          rw [h1] at hq
          rcases List.mem_append.mp hq with hq | hq
          · exact Nat.lt_trans (h2 q hq) hlt
          · rcases List.mem_cons.mp hq with hq | hq
            · rw [hq]; exact hlt
            · exact Nat.lt_of_le_of_lt (h3 q hq) hlt
        · rw [if_neg hlt]
          refine ⟨l1, l2 ++ [y], ?_, h2, ?_⟩
          · rw [show x :: (pre ++ [y]) = (x :: pre) ++ [y] by rfl, h1]
            simp
          · intro q hq
            rcases List.mem_append.mp hq with hq | hq
            · exact h3 q hq
            · rw [List.mem_singleton.mp hq]
              exact Nat.le_of_not_lt hlt)
      xs [] x ⟨[], [], rfl, (by intro q hq; cases hq), (by intro q hq; cases hq)⟩
    rw [h] at key2
    simpa using key2

/-- The v2 inline pillar scan selects the first index attaining the maximal
content length among non-utility pages, and only when that maximum is
positive; it yields `none` exactly when every scanned index is a utility
page or has empty content. No minimum word count is involved. -/
theorem findPillarV2_spec (pages : List Page) (idxs : List Nat) :
    ((findPillarV2 pages idxs).1 = none →
      ∀ i ∈ idxs, utilAt pages i = true ∨ lenAt pages i = 0) ∧
    (∀ p, (findPillarV2 pages idxs).1 = some p →
      utilAt pages p = false ∧ 0 < lenAt pages p ∧
      ∃ l1 l2, idxs = l1 ++ p :: l2 ∧
        (∀ q ∈ l1, utilAt pages q = false → lenAt pages q < lenAt pages p) ∧
        (∀ q ∈ l2, utilAt pages q = false → lenAt pages q ≤ lenAt pages p)) := by
  have key := foldl_processed
    (fun (acc : Option Nat × Nat) idx =>
      let page := pages.getD idx emptyPage
      if is_utility_page_v2 page.url page.title then acc
      else
        let contentLength := page.content.length
        if acc.2 < contentLength then (some idx, contentLength) else acc)
    (fun pre acc =>
      (acc.1 = none → acc.2 = 0 ∧ ∀ i ∈ pre, utilAt pages i = true ∨ lenAt pages i = 0) ∧
      (∀ p, acc.1 = some p → acc.2 = lenAt pages p ∧ utilAt pages p = false ∧
        0 < lenAt pages p ∧
        ∃ l1 l2, pre = l1 ++ p :: l2 ∧
          (∀ q ∈ l1, utilAt pages q = false → lenAt pages q < lenAt pages p) ∧
          (∀ q ∈ l2, utilAt pages q = false → lenAt pages q ≤ lenAt pages p)))
    ?step idxs [] (none, 0)
    ⟨fun _ => ⟨rfl, by intro i hi; cases hi⟩, fun p hp => by cases hp⟩
  case step =>
    intro pre acc idx hP
    obtain ⟨hn, hs⟩ := hP
    dsimp only
    by_cases hu : is_utility_page_v2 (pages.getD idx emptyPage).url
        (pages.getD idx emptyPage).title
    · rw [if_pos hu]
      constructor
      · intro h0
        obtain ⟨h1, h2⟩ := hn h0
        refine ⟨h1, fun i hi => ?_⟩
        rcases List.mem_append.mp hi with hi | hi
        · exact h2 i hi
        · rw [List.mem_singleton.mp hi]
          left; exact hu
      · intro p hp
        obtain ⟨h1, h2, h3, l1, l2, h4, h5, h6⟩ := hs p hp
        refine ⟨h1, h2, h3, l1, l2 ++ [idx], by rw [h4]; simp, h5, fun q hq => ?_⟩
        rcases List.mem_append.mp hq with hq | hq
        · exact h6 q hq
        · rw [List.mem_singleton.mp hq]
          intro hfalse
          exact absurd hu (by simp [utilAt, pageAt] at hfalse; simp [hfalse])
    · rw [if_neg hu]
      by_cases hlt : acc.2 < (pages.getD idx emptyPage).content.length
      · rw [if_pos hlt]
        constructor
        · intro h0; cases h0
        · intro p hp
          injection hp with hp
          subst hp
          refine ⟨rfl, (by simp only [utilAt, pageAt]; simpa using hu),
            Nat.lt_of_le_of_lt (Nat.zero_le _) hlt,
            pre, [], by simp, ?_, (by intro q hq; cases hq)⟩
          intro q hq hqu
          cases hacc : acc.1 with
          | none =>
            obtain ⟨h1, h2⟩ := hn hacc
            rcases h2 q hq with h3 | h3
            · rw [hqu] at h3; cases h3
            · rw [h1] at hlt
              show lenAt pages q < lenAt pages idx
              rw [h3]
              exact hlt
          | some pp =>
            obtain ⟨h1, h2, h3, l1, l2, h4, h5, h6⟩ := hs pp hacc
            rw [h1] at hlt
            rw [h4] at hq
            rcases List.mem_append.mp hq with hq | hq
            · exact Nat.lt_trans (h5 q hq hqu) hlt
            · rcases List.mem_cons.mp hq with hq | hq
              · rw [hq]; exact hlt
              · exact Nat.lt_of_le_of_lt (h6 q hq hqu) hlt
      · rw [if_neg hlt]
        constructor
        · intro h0
          obtain ⟨h1, h2⟩ := hn h0
          refine ⟨h1, fun i hi => ?_⟩
          rcases List.mem_append.mp hi with hi | hi
          · exact h2 i hi
          · rw [List.mem_singleton.mp hi]
            right
            rw [h1] at hlt
            exact Nat.eq_zero_of_not_pos hlt
        · intro p hp
          obtain ⟨h1, h2, h3, l1, l2, h4, h5, h6⟩ := hs p hp
          refine ⟨h1, h2, h3, l1, l2 ++ [idx], by rw [h4]; simp, h5, fun q hq => ?_⟩
          rcases List.mem_append.mp hq with hq | hq
          · exact h6 q hq
          · rw [List.mem_singleton.mp hq]
            intro _
            exact h1 ▸ Nat.le_of_not_lt hlt
  constructor
  · intro h0 i hi
    have := (key.1 (by simpa [findPillarV2] using h0)).2 i
    exact this (by simpa using hi)
  · intro p hp
    obtain ⟨h1, h2, h3, l1, l2, h4, h5, h6⟩ := key.2 p (by simpa [findPillarV2] using hp)
    exact ⟨h2, h3, l1, l2, by simpa using h4, h5, h6⟩

/-- C4 is false as stated for the v2 planner's inline pillar scan: although
a non-utility page meeting the configured minimum word count exists (index
1), the scan picks index 0, whose word count is below the minimum — the v2
path never restricts to pillar-worthy word counts (v1's `identify_pillar`,
on the same cluster, picks the other page). -/
theorem C4_counterexample :
    (findPillarV2 c4Pages [0, 1]).1 = some 0 ∧
    wordCount (pageAt c4Pages 0).content < MIN_PILLAR_WORDS ∧
    MIN_PILLAR_WORDS ≤ wordCount (pageAt c4Pages 1).content ∧
    utilAt c4Pages 0 = false ∧ utilAt c4Pages 1 = false ∧
    identify_pillar c4PagesV1 = some ⟨"https://s.com/many", c4Many⟩ := by
  decide

/-- C4 (amended): v1's `identify_pillar` implements the claimed policy —
restrict to non-utility pages meeting the minimum word count, else fall
back to all non-utility pages, then take the first page of maximal
character length, and `none` when no non-utility page exists. The v2
planner's inline scan instead has no word-count stage: it returns the
first index of maximal content length among non-utility pages (requiring
that maximum to be positive), `none` when every index is utility or
empty. -/
theorem C4_pillar_selection :
    (∀ cluster_pages : List PageV1,
      (cluster_pages.filter (fun p => !(is_utility_page_v1 p.url)) = [] →
        identify_pillar cluster_pages = none) ∧
      (∀ pillar, identify_pillar cluster_pages = some pillar →
        ∃ l1 l2,
          (let valid0 := cluster_pages.filter fun p =>
             !(is_utility_page_v1 p.url) && decide (MIN_PILLAR_WORDS ≤ wordCount p.content)
           let valid :=
             if valid0.isEmpty then
               cluster_pages.filter fun p => !(is_utility_page_v1 p.url)
             else valid0
           valid = l1 ++ pillar :: l2) ∧
          (∀ q ∈ l1, q.content.length < pillar.content.length) ∧
          (∀ q ∈ l2, q.content.length ≤ pillar.content.length))) ∧
    (∀ (pages : List Page) (idxs : List Nat),
      ((findPillarV2 pages idxs).1 = none →
        ∀ i ∈ idxs, utilAt pages i = true ∨ lenAt pages i = 0) ∧
      (∀ p, (findPillarV2 pages idxs).1 = some p →
        utilAt pages p = false ∧ 0 < lenAt pages p ∧
        ∃ l1 l2, idxs = l1 ++ p :: l2 ∧
          (∀ q ∈ l1, utilAt pages q = false → lenAt pages q < lenAt pages p) ∧
          (∀ q ∈ l2, utilAt pages q = false → lenAt pages q ≤ lenAt pages p))) := by
  refine ⟨?_, findPillarV2_spec⟩
  intro cluster_pages
  constructor
  · intro hB
    have hA : cluster_pages.filter (fun p =>
        !(is_utility_page_v1 p.url) && decide (MIN_PILLAR_WORDS ≤ wordCount p.content)) = [] := by
      refine List.filter_eq_nil.mpr fun p hp => ?_
      have := List.filter_eq_nil.mp hB p hp
      simp only [Bool.not_eq_true] at this ⊢
      simp [this]
    simp only [identify_pillar]
    rw [hA, hB]
    rfl
  · intro pillar h
    simp only [identify_pillar] at h
    exact pyMaxBy_first_max _ _ _ h

/-- Witness for C4 (amended) at concrete clusters. -/
theorem C4_witness :
    identify_pillar [⟨"https://s.com/privacy", "xxx"⟩] = none ∧
    (∃ l1 l2,
      (let valid0 := c4PagesV1.filter fun p =>
         !(is_utility_page_v1 p.url) && decide (MIN_PILLAR_WORDS ≤ wordCount p.content)
       let valid :=
         if valid0.isEmpty then c4PagesV1.filter fun p => !(is_utility_page_v1 p.url)
         else valid0
       valid = l1 ++ (⟨"https://s.com/many", c4Many⟩ : PageV1) :: l2) ∧
      (∀ q ∈ l1, q.content.length < c4Many.length) ∧
      (∀ q ∈ l2, q.content.length ≤ c4Many.length)) ∧
    utilAt c4Pages 0 = false ∧ 0 < lenAt c4Pages 0 :=
  ⟨(C4_pillar_selection.1 [⟨"https://s.com/privacy", "xxx"⟩]).1 (by decide),
   (C4_pillar_selection.1 c4PagesV1).2 ⟨"https://s.com/many", c4Many⟩ (by decide),
   ((C4_pillar_selection.2 c4Pages [0, 1]).2 0 (by decide)).1,
   ((C4_pillar_selection.2 c4Pages [0, 1]).2 0 (by decide)).2.1⟩

/-- One search step preserves the invariant. -/
theorem clusterStep_inv (evalK : Nat → Option (List Int × ℚ)) (minC c : Nat)
    (acc : BestAcc) (hc : minC ≤ c) (h : ClusterInv evalK minC c acc) :
    ClusterInv evalK minC (c + 1) (clusterStep evalK acc c) := by
  obtain ⟨hn, hs⟩ := h
  unfold clusterStep
  cases he : evalK c with
  | none =>
    constructor
    · intro h0
      obtain ⟨h1, h2⟩ := hn h0
      refine ⟨h1, fun k hk1 hk2 lab q hq => ?_⟩
      rcases Nat.lt_succ_iff_lt_or_eq.mp hk2 with hk | hk
      · exact h2 k hk1 hk lab q hq
      · subst hk; rw [he] at hq; cases hq
    · intro lab hlab
      obtain ⟨h1, k0, h2, h3, h4, h5, h6⟩ := hs lab hlab
      refine ⟨h1, k0, h2, Nat.lt_succ_of_lt h3, h4, ?_, h6⟩
      intro k hk1 hk2 lab2 q hq
      rcases Nat.lt_succ_iff_lt_or_eq.mp hk2 with hk | hk
      · exact h5 k hk1 hk lab2 q hq
      · subst hk; rw [he] at hq; cases hq
  | some pair =>
    obtain ⟨lab0, q0⟩ := pair
    dsimp only
    by_cases hlt : acc.score < q0
    · rw [if_pos hlt]
      constructor
      · intro h0; cases h0
      · intro lab hlab
        injection hlab with hlab
        subst hlab
        have hgt : -1 < q0 := by
          cases hgl : acc.labels with
          | none => exact (hn hgl).1 ▸ hlt
          | some l0 => exact lt_trans ((hs l0 hgl).1) hlt
        refine ⟨hgt, c, hc, Nat.lt_succ_self c, he, ?_, ?_⟩
        · intro k hk1 hk2 lab2 q hq
          rcases Nat.lt_succ_iff_lt_or_eq.mp hk2 with hk | hk
          · cases hgl : acc.labels with
            | none =>
              obtain ⟨h1, h2⟩ := hn hgl
              exact le_of_lt (lt_of_le_of_lt (h2 k hk1 hk lab2 q hq) (h1 ▸ hlt))
            | some l0 =>
              obtain ⟨_, k0, _, _, _, h5', _⟩ := hs l0 hgl
              exact le_of_lt (lt_of_le_of_lt (h5' k hk1 hk lab2 q hq) hlt)
          · subst hk
            rw [he] at hq
            injection hq with hq
            obtain ⟨e1, e2⟩ := Prod.mk.injEq .. ▸ hq
            exact le_of_eq e2.symm
        · intro k hk1 hk2 lab2 q hq
          cases hgl : acc.labels with
          | none =>
            obtain ⟨h1, h2⟩ := hn hgl
            exact lt_of_le_of_lt (h2 k hk1 hk2 lab2 q hq) (h1 ▸ hlt)
          | some l0 =>
            obtain ⟨_, k0, _, _, _, h5', _⟩ := hs l0 hgl
            exact lt_of_le_of_lt (h5' k hk1 hk2 lab2 q hq) hlt
    · rw [if_neg hlt]
      have hle : q0 ≤ acc.score := le_of_not_lt hlt
      constructor
      · intro h0
        obtain ⟨h1, h2⟩ := hn h0
        refine ⟨h1, fun k hk1 hk2 lab q hq => ?_⟩
        rcases Nat.lt_succ_iff_lt_or_eq.mp hk2 with hk | hk
        · exact h2 k hk1 hk lab q hq
        · subst hk
          rw [he] at hq
          injection hq with hq
          obtain ⟨e1, e2⟩ := Prod.mk.injEq .. ▸ hq
          rw [← e2]
          exact h1 ▸ hle
      · intro lab hlab
        obtain ⟨h1, k0, h2, h3, h4, h5, h6⟩ := hs lab hlab
        refine ⟨h1, k0, h2, Nat.lt_succ_of_lt h3, h4, ?_, h6⟩
        intro k hk1 hk2 lab2 q hq
        rcases Nat.lt_succ_iff_lt_or_eq.mp hk2 with hk | hk
        · exact h5 k hk1 hk lab2 q hq
        · subst hk
          rw [he] at hq
          injection hq with hq
          obtain ⟨e1, e2⟩ := Prod.mk.injEq .. ▸ hq
          rw [← e2]
          exact hle

/-- The whole candidate scan preserves the invariant. -/
theorem clusterFold_inv (evalK : Nat → Option (List Int × ℚ)) (minC : Nat) :
    ∀ (n c : Nat) (acc : BestAcc), minC ≤ c → ClusterInv evalK minC c acc →
    ClusterInv evalK minC (c + n) ((List.range' c n).foldl (clusterStep evalK) acc) := by
  intro n
  induction n with
  | zero => intro c acc hc h; simpa using h
  | succ n ih =>
    intro c acc hc h
    have hstep := clusterStep_inv evalK minC c acc hc h
    have hrest := ih (c + 1) _ (Nat.le_succ_of_le hc) hstep
    rw [List.range'_succ]
    simp only [List.foldl_cons]
    have harith : c + 1 + n = c + (n + 1) := by omega
    rw [harith] at hrest
    exact hrest

/-- The invariant established by the search of `cluster_pages_v2`. -/
theorem cluster_search_inv (evalK : Nat → Option (List Int × ℚ)) (minC n : Nat) :
    ClusterInv evalK minC (minC + n)
      ((List.range' minC n).foldl (clusterStep evalK) ⟨none, -1, minC⟩) := by
  refine clusterFold_inv evalK minC n minC ⟨none, -1, minC⟩ (le_refl _) ?_
  exact ⟨fun _ => ⟨rfl, fun k hk1 hk2 => by omega⟩, fun lab hlab => by cases hlab⟩

/-- C5 is false as stated: here candidate `k = 3` yields a valid partition
(score exactly `-1`), yet `cluster_pages_v2` raises instead of returning
it, because the accumulator starts at the sentinel `-1` and is replaced
only on strict improvement. -/
theorem C5_counterexample :
    cluster_pages_v2 defaultClusteringConfig c5Eval ["a", "b", "c"] =
      .error .clusteringFailure ∧
    3 ∈ List.range' (max defaultClusteringConfig.minClusters 2)
      (min defaultClusteringConfig.maxClusters (["a", "b", "c"] : List String).length + 1 -
        max defaultClusteringConfig.minClusters 2) ∧
    c5Eval 3 = some ([0, 1, 2], -1) :=
  ⟨rfl, by decide, rfl⟩

/-- C5 (amended): whenever some candidate `k` in the searched range yields a
valid partition with score strictly above the `-1` sentinel, the selector
returns the partition of maximal score, and among equal maximal scores the
smallest (earliest) `k` wins, since later candidates replace the best only
on strict improvement. -/
theorem C5_best_partition (cfg : ClusteringConfig) (evalK : Nat → Option (List Int × ℚ))
    (pages : List String) (h2 : 2 ≤ pages.length)
    (hex : ∃ k ∈ List.range' (max cfg.minClusters 2)
        (min cfg.maxClusters pages.length + 1 - max cfg.minClusters 2),
      ∃ lab q, evalK k = some (lab, q) ∧ -1 < q) :
    ∃ lab q, cluster_pages_v2 cfg evalK pages = .ok (lab, q) ∧
      ∃ k0 ∈ List.range' (max cfg.minClusters 2)
          (min cfg.maxClusters pages.length + 1 - max cfg.minClusters 2),
        evalK k0 = some (lab, q) ∧
        (∀ k ∈ List.range' (max cfg.minClusters 2)
            (min cfg.maxClusters pages.length + 1 - max cfg.minClusters 2),
          ∀ lab2 q2, evalK k = some (lab2, q2) → q2 ≤ q) ∧
        (∀ k ∈ List.range' (max cfg.minClusters 2)
            (min cfg.maxClusters pages.length + 1 - max cfg.minClusters 2),
          k < k0 → ∀ lab2 q2, evalK k = some (lab2, q2) → q2 < q) := by
  have hinv := cluster_search_inv evalK (max cfg.minClusters 2)
    (min cfg.maxClusters pages.length + 1 - max cfg.minClusters 2)
  simp only [cluster_pages_v2]
  rw [if_neg (by omega)]
  set best := (List.range' (max cfg.minClusters 2)
      (min cfg.maxClusters pages.length + 1 - max cfg.minClusters 2)).foldl
    (clusterStep evalK) ⟨none, -1, max cfg.minClusters 2⟩ with hbest
  cases hbl : best.labels with
  | none =>
    exfalso
    obtain ⟨k, hk, lab, q, hq, hgt⟩ := hex
    have hb := List.mem_range'_1.mp hk
    have hle := (hinv.1 hbl).2 k hb.1 hb.2 lab q hq
    exact absurd hgt (not_lt.mpr hle)
  | some lab =>
    obtain ⟨h1, k0, hk01, hk02, hk0e, h5, h6⟩ := hinv.2 lab hbl
    refine ⟨lab, best.score, rfl, k0, List.mem_range'_1.mpr ⟨hk01, hk02⟩, hk0e, ?_, ?_⟩
    · intro k hk lab2 q2 hq2
      have hb := List.mem_range'_1.mp hk
      exact h5 k hb.1 hb.2 lab2 q2 hq2
    · intro k hk hklt lab2 q2 hq2
      have hb := List.mem_range'_1.mp hk
      exact h6 k hb.1 hklt lab2 q2 hq2

/-- Witness for C5 (amended) at a concrete successful search. -/
theorem C5_witness :
    ∃ lab q, cluster_pages_v2 defaultClusteringConfig cwEval ["a", "b"] = .ok (lab, q) ∧
      ∃ k0 ∈ List.range' (max defaultClusteringConfig.minClusters 2)
          (min defaultClusteringConfig.maxClusters (["a", "b"] : List String).length + 1 -
            max defaultClusteringConfig.minClusters 2),
        cwEval k0 = some (lab, q) ∧
        (∀ k ∈ List.range' (max defaultClusteringConfig.minClusters 2)
            (min defaultClusteringConfig.maxClusters (["a", "b"] : List String).length + 1 -
              max defaultClusteringConfig.minClusters 2),
          ∀ lab2 q2, cwEval k = some (lab2, q2) → q2 ≤ q) ∧
        (∀ k ∈ List.range' (max defaultClusteringConfig.minClusters 2)
            (min defaultClusteringConfig.maxClusters (["a", "b"] : List String).length + 1 -
              max defaultClusteringConfig.minClusters 2),
          k < k0 → ∀ lab2 q2, cwEval k = some (lab2, q2) → q2 < q) :=
  C5_best_partition defaultClusteringConfig cwEval ["a", "b"] (by decide)
    ⟨2, by decide, [0, 1], 0, rfl, by decide⟩

/-- C6 is false as stated: with 2 pages and a candidate `k = 2` that does
produce a valid partition (score exactly `-1`), `cluster_pages_v2` still
raises `ClusteringError` — the "no candidate produced a valid partition"
half of the claimed iff does not hold at the `-1` sentinel. -/
theorem C6_counterexample :
    cluster_pages_v2 defaultClusteringConfig c6Eval ["a", "b"] = .error .clusteringFailure ∧
    2 ≤ (["a", "b"] : List String).length ∧
    2 ∈ List.range' (max defaultClusteringConfig.minClusters 2)
      (min defaultClusteringConfig.maxClusters (["a", "b"] : List String).length + 1 -
        max defaultClusteringConfig.minClusters 2) ∧
    c6Eval 2 = some ([0, 1], -1) :=
  ⟨rfl, by decide, by decide, rfl⟩

/-- C6 (amended): `cluster_pages_v2` fails exactly when fewer than 2 pages
are supplied or no searched candidate yields a valid partition scoring
strictly above the `-1` sentinel; fewer than 2 pages fail immediately with
the insufficient-input error; a candidate that raises is skipped (it
simply does not count as valid); and the configured silhouette floor never
influences the result — a low best score yields only a warning log. -/
theorem C6_failure_iff (cfg : ClusteringConfig) (evalK : Nat → Option (List Int × ℚ))
    (pages : List String) :
    ((∃ e, cluster_pages_v2 cfg evalK pages = .error e) ↔
      (pages.length < 2 ∨
        ∀ k ∈ List.range' (max cfg.minClusters 2)
            (min cfg.maxClusters pages.length + 1 - max cfg.minClusters 2),
          ∀ lab q, evalK k = some (lab, q) → q ≤ -1)) ∧
    (pages.length < 2 → cluster_pages_v2 cfg evalK pages = .error .insufficientInput) ∧
    (∀ floor : ℚ,
      cluster_pages_v2 ⟨cfg.minClusters, cfg.maxClusters, floor⟩ evalK pages =
        cluster_pages_v2 cfg evalK pages) := by
  have hinv := cluster_search_inv evalK (max cfg.minClusters 2)
    (min cfg.maxClusters pages.length + 1 - max cfg.minClusters 2)
  refine ⟨?_, ?_, fun _ => rfl⟩
  · by_cases hlen : pages.length < 2
    · constructor
      · intro _; left; exact hlen
      · intro _
        exact ⟨.insufficientInput, by simp only [cluster_pages_v2]; rw [if_pos hlen]⟩
    · simp only [cluster_pages_v2]
      rw [if_neg hlen]
      set best := (List.range' (max cfg.minClusters 2)
          (min cfg.maxClusters pages.length + 1 - max cfg.minClusters 2)).foldl
        (clusterStep evalK) ⟨none, -1, max cfg.minClusters 2⟩ with hbest
      cases hbl : best.labels with
      | none =>
        constructor
        · intro _
          right
          intro k hk lab q hq
          have hb := List.mem_range'_1.mp hk
          exact (hinv.1 hbl).2 k hb.1 hb.2 lab q hq
        · intro _
          exact ⟨.clusteringFailure, rfl⟩
      | some lab =>
        constructor
        · intro ⟨e, he⟩
          cases he
        · intro h
          rcases h with h | h
          · exact absurd h hlen
          · exfalso
            obtain ⟨h1, k0, hk01, hk02, hk0e, _, _⟩ := hinv.2 lab hbl
            have := h k0 (List.mem_range'_1.mpr ⟨hk01, hk02⟩) lab best.score hk0e
            exact absurd h1 (not_lt.mpr this)
  · intro hlen
    simp only [cluster_pages_v2]
    rw [if_pos hlen]

/-- Witness for C6 (amended) at concrete inputs. -/
theorem C6_witness :
    cluster_pages_v2 defaultClusteringConfig c6Eval ["x"] = .error .insufficientInput ∧
    cluster_pages_v2
        ⟨defaultClusteringConfig.minClusters, defaultClusteringConfig.maxClusters, 9/10⟩
        cwEval ["a", "b"] =
      cluster_pages_v2 defaultClusteringConfig cwEval ["a", "b"] :=
  ⟨(C6_failure_iff defaultClusteringConfig c6Eval ["x"]).2.1 (by decide),
   (C6_failure_iff defaultClusteringConfig cwEval ["a", "b"]).2.2 (9/10)⟩
